import Mathlib

/-
  Verification of the gripmock build/run orchestrator core
  (path resolver `findProtoInImports`, namespace rewriter
  `fixGoPackageProtoStream` / `fixGoPackages`, child-process
  supervision loop in `main`, and `buildServer`), shallowly embedded
  from the Go sources.

  Paths are modelled as Lean `String`s manipulated exactly as Go's
  `path`/`path/filepath` packages manipulate them on a Unix system
  (separator '/', no volume names).  The filesystem is modelled as a
  finite map from absolute, lexically cleaned paths to a file kind;
  `os.Stat` resolves relative paths against a fixed working directory
  and is symlink-free, mirroring the assumptions the resolver itself
  documents (no symlink resolution, lexical matching).
-/

namespace Gripmock

/-- Convert a character list back into a string. -/
def ofChars (l : List Char) : String := ⟨l⟩

/-- Split a character list on '/'; always returns at least one piece,
mirroring `strings.Split(s, "/")`. -/
def splitSl : List Char → List (List Char)
  | [] => [[]]
  | c :: rest =>
    if c = '/' then [] :: splitSl rest
    else (splitSl rest).modifyHead (fun h => c :: h)

/-- Join pieces with '/' between them, mirroring `strings.Join(elems, "/")`. -/
def joinSl : List (List Char) → List Char
  | [] => []
  | [x] => x
  | x :: y :: rest => x ++ '/' :: joinSl (y :: rest)

/-- Does `hay` start with `needle` (character lists)?  Mirrors
`strings.HasPrefix`. -/
def startsWithL : List Char → List Char → Bool
  | _, [] => true
  | [], _ :: _ => false
  | c :: cs, d :: ds => c = d && startsWithL cs ds

/-- Mirror of `strings.HasPrefix` on strings. -/
def startsWithStr (hay needle : String) : Bool :=
  startsWithL hay.data needle.data

/-- Does `hay` contain `needle` as a contiguous substring?  Mirrors
`strings.Contains` (used only to state claims about error messages). -/
def containsL : List Char → List Char → Bool
  | [], needle => needle.isEmpty
  | c :: t, needle => startsWithL (c :: t) needle || containsL t needle

/-- Mirror of `strings.Contains` on strings. -/
def containsStr (hay needle : String) : Bool :=
  containsL hay.data needle.data

/-- The ".." path element. -/
def ddots : List Char := ['.', '.']

/-- One step of Go's `path.Clean` element scan.  `st` is the stack of kept
elements, most recent first.  Empty and "." elements are dropped; ".."
pops a non-".." element, is dropped at the root of a rooted path, and is
kept otherwise. -/
def cleanStep (rooted : Bool) (st : List (List Char)) (e : List Char) : List (List Char) :=
  if e = [] ∨ e = ['.'] then st
  else if e = ddots then
    match st with
    | [] => if rooted then [] else [e]
    | a :: rest => if a = ddots then e :: a :: rest else rest
  else e :: st

/-- Whether a character list starts with '/'. -/
def rootedOf (l : List Char) : Bool :=
  match l with
  | c :: _ => c = '/'
  | [] => false

/-- `path.Clean` on character lists: split into '/'-separated elements,
process them with `cleanStep`, and re-render (a rooted path keeps its
leading '/'; an empty result renders as "." or "/"). -/
def cleanL (l : List Char) : List Char :=
  let elems := ((splitSl l).foldl (cleanStep (rootedOf l)) []).reverse
  if rootedOf l then '/' :: joinSl elems
  else if elems = [] then ['.'] else joinSl elems

/-- Go's `path.Clean` / Unix `filepath.Clean`. -/
def clean (s : String) : String := ofChars (cleanL s.data)

/-- Go's Unix `filepath.IsAbs`: the path starts with '/'. -/
def isAbs (s : String) : Bool :=
  match s.data with
  | c :: _ => c = '/'
  | [] => false

/-- Go's `path.Join`: drop leading empty components, join the rest with
'/', and clean; all components empty yields "". -/
def pjoin (elems : List String) : String :=
  match elems.dropWhile (fun e => e = "") with
  | [] => ""
  | rest => clean (ofChars (joinSl (rest.map String.data)))

/-- Characters of a path up to and including its last '/'; `[]` when the
path has no '/'.  This is the `dir` half of Go's `path.Split`. -/
def dirChars (cs : List Char) : List Char :=
  (cs.reverse.dropWhile (fun c => ¬ c = '/')).reverse

/-- Go's `path.Dir`: everything before the final slash, cleaned; "."
when there is no slash. -/
def pdir (s : String) : String := ofChars (cleanL (dirChars s.data))

/-- Go's `path.Base`: last element of the path after stripping trailing
slashes; "." for the empty string, "/" for an all-slash path. -/
def pbase (s : String) : String :=
  if s = "" then "."
  else
    let r := s.data.reverse.dropWhile (fun c => c = '/')
    if r = [] then "/"
    else ofChars ((r.takeWhile (fun c => ¬ c = '/')).reverse)

/-- Go's `filepath.Abs` with the working directory `wd` supplied
explicitly (`os.Getwd` is modelled as always returning `wd`). -/
def goAbs (wd p : String) : String :=
  if isAbs p then clean p else pjoin [wd, p]

/-- Element list of a cleaned, volume-free path for `filepath.Rel`'s
segment scan: the leading '/' of a rooted path is not an element, and
"" and "/" have no elements. -/
def relElems (p : String) : List (List Char) :=
  let body : List Char := if isAbs p then p.data.tail else p.data
  if body = [] then [] else splitSl body

/-- Strip the longest common prefix from two element lists (the segment
comparison loop inside `filepath.Rel`). -/
def stripCommon : List (List Char) → List (List Char) → List (List Char) × List (List Char)
  | a :: as, b :: bs => if a = b then stripCommon as bs else (a :: as, b :: bs)
  | as, bs => (as, bs)

/-- Go's Unix `filepath.Rel` (no volume names).  Errors mirror the two
`errors.New("Rel: can't make ...")` cases; the success value is the
target path expressed relative to the base path. -/
def relGo (basepath targpath : String) : Except String String :=
  let base := clean basepath
  let targ := clean targpath
  if targ = base then .ok "."
  else
    let base := if base = "." then "" else base
    if base = ".." ∨ startsWithStr base "../" then
      .error ("Rel: can't make " ++ targpath ++ " relative to " ++ basepath)
    else if (isAbs base) ≠ (isAbs targ) then
      .error ("Rel: can't make " ++ targpath ++ " relative to " ++ basepath)
    else
      let (brem, trem) := stripCommon (relElems base) (relElems targ)
      if brem.head? = some ddots then
        .error ("Rel: can't make " ++ targpath ++ " relative to " ++ basepath)
      else if brem ≠ [] then
        .ok (ofChars (joinSl (List.replicate brem.length ddots ++ trem)))
      else
        .ok (ofChars (joinSl trem))

/-! ## Filesystem model -/

/-- Kind of a filesystem entry. -/
inductive FKind
  | file
  | dir
deriving DecidableEq

/-- A filesystem: a finite association of absolute, cleaned paths to
entry kinds.  Symlinks are not modelled (the resolver documents that it
never resolves them). -/
structure FS where
  entries : List (String × FKind)

/-- Model of `os.Stat` restricted to what the resolver observes: the
kind of the entry at a path, or `none` when the path does not exist.
Relative paths are resolved against the working directory `wd` exactly
as `filepath.Abs` would resolve them. -/
def statKind (fs : FS) (wd p : String) : Option FKind :=
  ((fs.entries.find? (fun e => e.1 = goAbs wd p)).map (fun e => e.2))

/-! ## Path resolver (`findProtoInImports`) -/

/-- `GENERATED_MODULE_NAME` from the source: module name used for all
generated code. -/
def GENERATED_MODULE_NAME : String := "gripmock/generated"

/-- Result of `findProtoInImports`: the matched import directory, the
proto's directory relative to it, and whether the implicit-import-path
warning (`log.V(LOG_INFO).Info("WARNING: adding proto file's containing
dir as implicit import path...")`) was emitted on the way. -/
structure Resolved where
  imp : String
  rel : String
  warned : Bool
deriving DecidableEq

/-- The body of the search loop of `findProtoInImports` for one import
path entry `imp`, with `p` the already-cleaned proto path.  Returns the
`(matchedImp, matchedRel)` pair on a match and `none` when the loop
would continue with the next entry.  `filepath.Abs` cannot fail in the
model (`os.Getwd` always succeeds and returns `wd`). -/
def entryStep (fs : FS) (wd p imp : String) : Option (String × String) :=
  let impC := clean imp
  if isAbs p then
    let absImp := goAbs wd impC
    match relGo absImp p with
    | .error _ => none
    | .ok relPath =>
      if relPath ≠ "" ∧ startsWithStr relPath "../" = false then
        let r := pdir relPath
        let derived := pjoin [impC, r, pbase p]
        if (statKind fs wd derived).isSome then some (impC, r) else none
      else none
  else
    let importProtoPath := pjoin [impC, p]
    if (statKind fs wd importProtoPath).isSome then some (impC, pdir p) else none

/-- The `for _, imp := range importPaths` loop of `findProtoInImports`:
first matching entry wins. -/
def searchLoop (fs : FS) (wd p : String) : List String → Option (String × String)
  | [] => none
  | imp :: rest =>
    match entryStep fs wd p imp with
    | some m => some m
    | none => searchLoop fs wd p rest

/-- The search phase of `findProtoInImports`: the import-path loop
followed by the implicit-import fallback.  On success it yields
`(matchedImp, matchedRel, warned)`. -/
def findProtoSearch (fs : FS) (wd : String) (importPaths : List String)
    (protoPath : String) : Except String (String × String × Bool) :=
  match searchLoop fs wd (clean protoPath) importPaths with
  | some (mi, mr) => .ok (mi, mr, false)
  | none =>
    if (statKind fs wd (clean protoPath)).isSome then
      .ok (pdir (clean protoPath), ".", true)
    else
      .error ("could not find proto \"" ++ clean protoPath ++ "\" on import path")

/-- The final sanity check of `findProtoInImports`: the derived
`path.Join(matchedImp, matchedRel, path.Base(protoPath))` must name an
existing non-directory file. -/
def findProtoFinal (fs : FS) (wd protoPath mi mr : String) (w : Bool) :
    Except String Resolved :=
  match statKind fs wd (pjoin [mi, mr, pbase (clean protoPath)]) with
  | none =>
    .error ("cannot stat proto file at path \"" ++
      pjoin [mi, mr, pbase (clean protoPath)] ++ "\"")
  | some .dir =>
    .error ("path \"" ++ pjoin [mi, mr, pbase (clean protoPath)] ++
      "\" is a directory")
  | some .file => .ok ⟨mi, mr, w⟩

/-- `findProtoInImports(importPaths, protoPath)` from the source: reject
empty input, clean the proto path, run the search loop, fall back to the
proto's own containing directory when the file exists anywhere on disk
(emitting a warning), error out when it does not, and finally sanity
check that the derived path names an existing non-directory file. -/
def findProtoInImports (fs : FS) (wd : String) (importPaths : List String)
    (protoPath : String) : Except String Resolved :=
  if protoPath = "" then .error "empty input"
  else
    match findProtoSearch fs wd importPaths protoPath with
    | .error e => .error e
    | .ok (mi, mr, w) => findProtoFinal fs wd protoPath mi mr w

/-! ## Namespace rewriter (`fixGoPackageProtoStream`)

The Go function is a streaming line transform over `bufio.ScanLines`
tokens; we embed it as a function on the list of scanned lines. -/

/-- Space or tab, the character class `[ \t]` of the rewrite regexes. -/
def wsP (c : Char) : Bool := c = ' ' ∨ c = '\t'

/-- Consume an exact literal from the front of a character list. -/
def stripLit : List Char → List Char → Option (List Char)
  | [], rest => some rest
  | _ :: _, [] => none
  | l :: ls, c :: cs => if c = l then stripLit ls cs else none

/-- Consume at least one space/tab, then any further spaces/tabs
(`[ \t]+` in front of a token that cannot itself start with a blank). -/
def ws1 : List Char → Option (List Char)
  | [] => none
  | c :: rest => if wsP c then some (rest.dropWhile wsP) else none

/-- The regex `^option[ \t]+go_package[ \t]+=` from the source: lines
carrying the file's go_package directive. -/
def goPackageLineP (l : String) : Bool :=
  (do
    let r1 ← stripLit "option".data l.data
    let r2 ← ws1 r1
    let r3 ← stripLit "go_package".data r2
    let r4 ← ws1 r3
    stripLit "=".data r4).isSome

/-- The regex `^syntax[ \t]` from the source: the proto file's
version-declaration line. -/
def versionLineP (l : String) : Bool :=
  (do
    let r ← stripLit "syntax".data l.data
    match r with
    | c :: _ => if wsP c then some () else none
    | [] => none).isSome

/-- The injected namespace directive, from
`fmt.Sprintf("\noption go_package = \"%s\";\n", newPackage)`. -/
def goPackageDirective (newPackage : String) : String :=
  "option go_package = \"" ++ newPackage ++ "\";"

/-- The scan loop of `fixGoPackageProtoStream` plus its end-of-input
check.  `found` is the `foundSyntaxLine` flag.  A go_package line is
dropped; the single version line is followed by the injected directive
and a blank line (the directive string carries its own trailing
newline, and every emitted line gets one more); a second version line
is the multiple-declarations error; reaching the end without one is the
missing-declaration error. -/
def fixLines (newPackage : String) : Bool → List String → Except String (List String)
  | found, [] =>
    if found then .ok []
    else .error "no \"syntax\" line found when scanning proto file"
  | found, l :: rest =>
    if goPackageLineP l then fixLines newPackage found rest
    else if versionLineP l then
      if found then .error "Found more than one \"syntax\" statement"
      else do
        let out ← fixLines newPackage true rest
        .ok (l :: goPackageDirective newPackage :: "" :: out)
    else do
      let out ← fixLines newPackage found rest
      .ok (l :: out)

/-- `fixGoPackageProtoStream(in, newPackage, out)` on scanned lines: an
empty target package is rejected up front, then the stream is rewritten
line by line. -/
def fixGoPackageProtoStream (lines : List String) (newPackage : String) :
    Except String (List String) :=
  if newPackage = "" then .error "empty package name"
  else fixLines newPackage false lines

/-- `bufio.ScanLines`: split at '\n', strip one trailing '\r' from each
token, and do not emit a final empty token for a trailing newline. -/
def dropCR (l : List Char) : List Char :=
  if l.getLast? = some '\r' then l.dropLast else l

/-- Split a character list at every '\n'. -/
def splitNl : List Char → List (List Char)
  | [] => [[]]
  | c :: rest =>
    if c = '\n' then [] :: splitNl rest
    else (splitNl rest).modifyHead (fun h => c :: h)

/-- Tokenisation performed by the scanner in `fixGoPackageProtoStream`. -/
def scanLines (s : String) : List String :=
  let pieces := (splitNl s.data).map dropCR
  (match pieces.getLast? with
   | some [] => pieces.dropLast
   | _ => pieces).map ofChars

/-- Each kept or injected line is written with a trailing '\n'
(`ow.WriteString(l + "\n")`). -/
def renderLines (ls : List String) : String :=
  ls.foldl (fun acc l => acc ++ l ++ "\n") ""

/-! ## `fixGoPackages` (resolution + rewrite of every input proto) -/

/-- The `protocParam` struct fields that `fixGoPackages` reads and
writes. -/
structure ProtocParam where
  protoPath : List String
  adminPort : String
  grpcAddress : String
  grpcPort : String
  output : String
  imports : List String
  templateDir : String

/-- One proto file processed by `fixGoPackages`: the resolved source
path, the output path, the freshly derived go package, and the
rewritten lines written to the output file. -/
structure WrittenProto where
  resolvedSrc : String
  outPath : String
  newPackage : String
  lines : List String
deriving DecidableEq

/-- The loop body of `fixGoPackages` over the input proto list.
`contents` maps a path to the scanned lines of the file stored there
(`os.Open` + `bufio.Scanner`); `os.MkdirAll` is assumed to succeed.
For each proto: resolve it, derive the output locations and the new
package from `GENERATED_MODULE_NAME` and the resolved relative subpath,
and rewrite the file. -/
def fixGoPackagesLoop (fs : FS) (wd : String) (contents : String → List String)
    (imports : List String) (output : String) :
    List String → Except String (List WrittenProto)
  | [] => .ok []
  | proto :: rest =>
    match findProtoInImports fs wd imports proto with
    | .error e => .error e
    | .ok res =>
      match fixGoPackageProtoStream (contents (pjoin [res.imp, res.rel, pbase proto]))
          (pjoin [GENERATED_MODULE_NAME, res.rel]) with
      | .error e =>
        .error ("failed to munge proto file \"" ++
          pjoin [res.imp, res.rel, pbase proto] ++ "\": " ++ e)
      | .ok newLines =>
        match fixGoPackagesLoop fs wd contents imports output rest with
        | .error e => .error e
        | .ok rest' =>
          .ok (⟨pjoin [res.imp, res.rel, pbase proto],
                pjoin [pjoin [output, res.rel], pbase proto],
                pjoin [GENERATED_MODULE_NAME, res.rel], newLines⟩ :: rest')

/-- `fixGoPackages(param)`: rewrite every input proto into the output
tree and point `param.protoPath` at the rewritten copies. -/
def fixGoPackages (fs : FS) (wd : String) (contents : String → List String)
    (param : ProtocParam) : Except String (List WrittenProto × ProtocParam) :=
  match fixGoPackagesLoop fs wd contents param.imports param.output param.protoPath with
  | .error e => .error e
  | .ok ws => .ok (ws, { param with protoPath := ws.map (fun w => w.outPath) })

/-! ## Build & run orchestrator (`main`) -/

/-- Exit codes declared in the source. -/
def EXITCODE_OTHER_ERROR : Nat := 1

/-- Build-time failure exit code. -/
def EXITCODE_BUILD_ERROR : Nat := 2

/-- Runtime (child process) failure exit code. -/
def EXITCODE_RUNTIME_ERROR : Nat := 3

/-- Command-line argument error exit code. -/
def EXITCODE_ARGUMENTS_ERROR : Nat := 4

/-- An event arriving at the orchestrator's select loop: either the
child waiter goroutine delivers the result of `run.Wait()` on
`runerrchan` (`none` models a nil error, `some c` an `*exec.ExitError`
whose `ExitCode()` is `c`), or a termination signal arrives on
`sigchan`. -/
inductive LoopEvent
  | childExit (waitErr : Option Int)
  | signal
deriving DecidableEq

/-- The `os/exec` contract for `(*Cmd).Wait` on a started process that
terminated: it returns nil exactly when the child exited with status 0,
and an `*exec.ExitError` carrying the status otherwise. -/
def waitErrOf (exitCode : Int) : Option Int :=
  if exitCode = 0 then none else some exitCode

/-- Observable outcome of running the select loop on a finite event
sequence: the exit code passed to `os.Exit` if the loop exits,
whether `run.Process.Kill()` was ever invoked, and how many events the
loop consumed before exiting (all of them if it never exits). -/
structure LoopOut where
  exitCode : Option Nat
  killSent : Bool
  consumed : Nat
deriving DecidableEq

/-- The `for { select { ... } }` loop at the end of `main`: an
`*exec.ExitError` from the waiter exits with 0 or
`EXITCODE_RUNTIME_ERROR` according to `e.Success()`; any other waiter
value (including the nil error of a clean exit) only logs and loops; a
signal kills the child and loops, waiting for the child's exit to
arrive.  When the event list is exhausted the loop blocks forever. -/
def runSelectLoop (killSent : Bool) (consumed : Nat) :
    List LoopEvent → LoopOut
  | [] => ⟨none, killSent, consumed⟩
  | e :: rest =>
    match e with
    | .signal => runSelectLoop true (consumed + 1) rest
    | .childExit none => runSelectLoop killSent (consumed + 1) rest
    | .childExit (some c) =>
      if c = 0 then ⟨some 0, killSent, consumed + 1⟩
      else ⟨some EXITCODE_RUNTIME_ERROR, killSent, consumed + 1⟩

/-- The inputs `main` consumes, with the results of the excluded
flag-parsing step (`flag.Parse`) supplied directly: `argv` is `os.Args`;
`outputFlag` the `-o` value; `protoArgs` the positional arguments;
the booleans abstract the success of the output-directory stat/mkdir,
of `generateProtoc` (resolution, rewriting and the protoc run), of
`buildServer`, and of `run.Start()`; `childEvents` the events reaching
the select loop. -/
structure World where
  argv : List String
  outputFlag : String
  outputExists : Bool
  mkdirOk : Bool
  protoArgs : List String
  generateOk : Bool
  buildOk : Bool
  startOk : Bool
  childEvents : List LoopEvent

/-- How a run of `main` ends. -/
inductive Outcome
  | panicked
  | exit (code : Nat)
  | hang
deriving DecidableEq

/-- `main` from the source: the unguarded `os.Args[1]` backwards
compatibility check (a Go index-out-of-range panic when `os.Args` has
fewer than two entries), the empty-output-directory and missing-proto
argument errors, the build-time error exits, the start failure, and the
select loop. -/
def mainModel (w : World) : Outcome :=
  match w.argv with
  | _ :: _ :: _ =>
    if w.outputFlag = "" then .exit EXITCODE_ARGUMENTS_ERROR
    else if ¬ w.outputExists ∧ ¬ w.mkdirOk then .exit EXITCODE_OTHER_ERROR
    else if w.protoArgs = [] then .exit EXITCODE_ARGUMENTS_ERROR
    else if ¬ w.generateOk then .exit EXITCODE_BUILD_ERROR
    else if ¬ w.buildOk then .exit EXITCODE_BUILD_ERROR
    else if ¬ w.startOk then .exit EXITCODE_RUNTIME_ERROR
    else
      match (runSelectLoop false 0 w.childEvents).exitCode with
      | some c => .exit c
      | none => .hang
  | _ => .panicked

/-! ## `buildServer` -/

/-- Process state observed by `buildServer`: the working directory. -/
structure OsState where
  cwd : String
deriving DecidableEq

/-- `os.Chdir`: an absolute target replaces the working directory, a
relative one is resolved against it (lexically; no symlinks in the
model). -/
def chdirTo (cwd p : String) : String :=
  if isAbs p then clean p else pjoin [cwd, p]

/-- Environment outcomes for the steps `buildServer` runs: whether
`os.Getwd` succeeds, which `os.Chdir` targets succeed, and whether each
of the three `go` commands (`go mod edit -module`, `go mod tidy`,
`go build -o server ./cmd/...`) succeeds. -/
structure BuildEnv where
  getwdOk : Bool
  chdirOk : String → Bool
  modEditOk : Bool
  tidyOk : Bool
  goBuildOk : Bool

/-- `buildServer(output)` from the source: remember the working
directory, chdir into the output directory, run the three build steps
(any failure returns the error immediately, leaving the working
directory changed), and on success chdir back before returning. -/
def buildServer (env : BuildEnv) (st : OsState) (output : String) :
    OsState × Except String Unit :=
  if ¬ env.getwdOk then (st, .error "getcwd()")
  else
    let oldCwd := st.cwd
    if ¬ env.chdirOk output then (st, .error ("changing directory to " ++ output))
    else
      let st1 : OsState := ⟨chdirTo st.cwd output⟩
      if ¬ env.modEditOk then (st1, .error "setting go.mod name")
      else if ¬ env.tidyOk then (st1, .error "tidying go.mod")
      else if ¬ env.goBuildOk then (st1, .error "building server")
      else if ¬ env.chdirOk oldCwd then (st1, .error "returning to old working directory")
      else (⟨chdirTo st1.cwd oldCwd⟩, .ok ())

/-! ## Canonical form of cleaned paths -/

/-- A "good" path element: nonempty, slash-free, and neither "." nor
"..".  These are the only elements `cleanStep` can leave on the stack
besides a leading run of "..". -/
def goodSeg (e : List Char) : Prop :=
  e ≠ [] ∧ '/' ∉ e ∧ e ≠ ['.'] ∧ e ≠ ddots

/-- Every element of the list is good. -/
def goodElems (gs : List (List Char)) : Prop :=
  ∀ g ∈ gs, goodSeg g

/-! ## Lemmas: split/join algebra -/

theorem splitSl_cons (c : Char) (rest : List Char) :
    splitSl (c :: rest) =
      if c = '/' then [] :: splitSl rest
      else (splitSl rest).modifyHead (fun h => c :: h) := rfl

theorem splitSl_ne_nil (l : List Char) : splitSl l ≠ [] := by
  cases l with
  | nil => simp [splitSl]
  | cons c rest =>
    rw [splitSl_cons]
    split
    · simp
    · cases h : splitSl rest with
      | nil => exact absurd h (splitSl_ne_nil rest)
      | cons x t => simp

theorem splitSl_append_slash (x y : List Char) :
    splitSl (x ++ '/' :: y) = splitSl x ++ splitSl y := by
  induction x with
  | nil => simp [splitSl]
  | cons c t ih =>
    rw [List.cons_append, splitSl_cons, splitSl_cons]
    by_cases hc : c = '/'
    · rw [if_pos hc, if_pos hc, ih]; rfl
    · rw [if_neg hc, if_neg hc, ih]
      cases h : splitSl t with
      | nil => exact absurd h (splitSl_ne_nil t)
      | cons h0 t0 => simp

theorem splitSl_no_slash (x : List Char) (hx : '/' ∉ x) : splitSl x = [x] := by
  induction x with
  | nil => rfl
  | cons c t ih =>
    have hc : ¬ c = '/' := fun h => hx (h ▸ List.mem_cons_self c t)
    have ht : '/' ∉ t := fun h => hx (List.mem_cons_of_mem c h)
    rw [splitSl_cons, if_neg hc, ih ht]; rfl

theorem splitSl_pieces_no_slash (l : List Char) :
    ∀ piece ∈ splitSl l, '/' ∉ piece := by
  induction l with
  | nil => intro piece hp; simp [splitSl] at hp; simp [hp]
  | cons c t ih =>
    intro piece hp
    rw [splitSl_cons] at hp
    by_cases hc : c = '/'
    · rw [if_pos hc] at hp
      rcases List.mem_cons.mp hp with h | h
      · simp [h]
      · exact ih piece h
    · rw [if_neg hc] at hp
      cases h : splitSl t with
      | nil => exact absurd h (splitSl_ne_nil t)
      | cons h0 t0 =>
        rw [h, List.modifyHead_cons] at hp
        rcases List.mem_cons.mp hp with h1 | h1
        · subst h1
          intro hmem
          rcases List.mem_cons.mp hmem with h2 | h2
          · exact hc h2.symm
          · exact ih h0 (h ▸ List.mem_cons_self h0 t0) h2
        · exact ih piece (h ▸ List.mem_cons_of_mem h0 h1)

theorem joinSl_cons_cons (x y : List Char) (rest : List (List Char)) :
    joinSl (x :: y :: rest) = x ++ '/' :: joinSl (y :: rest) := rfl

theorem splitSl_joinSl (es : List (List Char)) (hne : es ≠ [])
    (h : ∀ e ∈ es, '/' ∉ e) : splitSl (joinSl es) = es := by
  induction es with
  | nil => exact absurd rfl hne
  | cons e t ih =>
    cases t with
    | nil => exact splitSl_no_slash e (h e (by simp))
    | cons y rest =>
      rw [joinSl_cons_cons, splitSl_append_slash,
        splitSl_no_slash e (h e (by simp)),
        ih (by simp) (fun p hp => h p (List.mem_cons_of_mem e hp))]
      rfl

theorem joinSl_append_last (es : List (List Char)) (x : List Char) (hne : es ≠ []) :
    joinSl (es ++ [x]) = joinSl es ++ '/' :: x := by
  induction es with
  | nil => exact absurd rfl hne
  | cons e t ih =>
    cases t with
    | nil => rfl
    | cons y rest =>
      rw [List.cons_append, List.cons_append, joinSl_cons_cons, ← List.cons_append,
        ih (by simp), joinSl_cons_cons]
      simp

theorem joinSl_ne_nil (e : List Char) (es : List (List Char)) (he : e ≠ []) :
    joinSl (e :: es) ≠ [] := by
  cases es with
  | nil => exact he
  | cons y rest => rw [joinSl_cons_cons]; simp [he]

theorem joinSl_head (c : Char) (e : List Char) (es : List (List Char)) :
    ∃ t, joinSl ((c :: e) :: es) = c :: t := by
  cases es with
  | nil => exact ⟨e, rfl⟩
  | cons y rest => exact ⟨e ++ '/' :: joinSl (y :: rest), rfl⟩

/-! ## Lemmas: the clean-stack machine -/

theorem cleanStep_good (rooted : Bool) (st : List (List Char)) (e : List Char)
    (he : goodSeg e) : cleanStep rooted st e = e :: st := by
  obtain ⟨h1, _, h3, h4⟩ := he
  unfold cleanStep
  rw [if_neg (by simp [h1, h3]), if_neg h4]

theorem cleanStep_skip (rooted : Bool) (st : List (List Char)) (e : List Char)
    (he : e = [] ∨ e = ['.']) : cleanStep rooted st e = st := by
  unfold cleanStep
  rw [if_pos he]

theorem cleanStep_dd_nil (rooted : Bool) :
    cleanStep rooted [] ddots = if rooted then [] else [ddots] := by
  simp [cleanStep, ddots]

theorem cleanStep_dd_cons (rooted : Bool) (a : List Char) (rest : List (List Char)) :
    cleanStep rooted (a :: rest) ddots =
      if a = ddots then ddots :: a :: rest else rest := by
  simp [cleanStep, ddots]

theorem foldl_cleanStep_goods (rooted : Bool) (gs : List (List Char))
    (h : goodElems gs) :
    ∀ st, List.foldl (cleanStep rooted) st gs = gs.reverse ++ st := by
  induction gs with
  | nil => intro st; rfl
  | cons g t ih =>
    intro st
    rw [List.foldl_cons, cleanStep_good rooted st g (h g (by simp)),
      ih (fun x hx => h x (List.mem_cons_of_mem g hx)) (g :: st)]
    simp

theorem cleanStep_dd_stack (m : Nat) :
    cleanStep false (List.replicate m ddots) ddots = List.replicate (m + 1) ddots := by
  cases m with
  | zero => rw [List.replicate_zero, cleanStep_dd_nil]; rfl
  | succ n =>
    rw [List.replicate_succ, cleanStep_dd_cons, if_pos rfl, ← List.replicate_succ,
      ← List.replicate_succ]

theorem foldl_cleanStep_dd (k : Nat) :
    ∀ m, List.foldl (cleanStep false) (List.replicate m ddots) (List.replicate k ddots) =
      List.replicate (k + m) ddots := by
  induction k with
  | zero => intro m; simp
  | succ n ih =>
    intro m
    rw [List.replicate_succ, List.foldl_cons, cleanStep_dd_stack m, ih (m + 1)]
    congr 1
    omega

theorem foldl_cleanStep_canon (k : Nat) (gs : List (List Char)) (h : goodElems gs) :
    List.foldl (cleanStep false) [] (List.replicate k ddots ++ gs) =
      gs.reverse ++ List.replicate k ddots := by
  rw [List.foldl_append]
  have h0 : List.foldl (cleanStep false) [] (List.replicate k ddots) =
      List.replicate k ddots := by
    have := foldl_cleanStep_dd k 0
    simpa using this
  rw [h0, foldl_cleanStep_goods false gs h]

/-- Invariant of the clean stack for unrooted paths: some good elements
on top of a run of "..". -/
def ShapeRel (st : List (List Char)) : Prop :=
  ∃ a k, st = a ++ List.replicate k ddots ∧ goodElems a

theorem shapeRel_step (st : List (List Char)) (e : List Char)
    (hst : ShapeRel st) (he : '/' ∉ e) : ShapeRel (cleanStep false st e) := by
  obtain ⟨a, k, rfl, ha⟩ := hst
  by_cases hskip : e = [] ∨ e = ['.']
  · rw [cleanStep_skip _ _ _ hskip]; exact ⟨a, k, rfl, ha⟩
  · by_cases hdd : e = ddots
    · subst hdd
      cases a with
      | nil =>
        rw [List.nil_append]
        cases k with
        | zero =>
          rw [List.replicate_zero, cleanStep_dd_nil]
          exact ⟨[], 1, rfl, by intro g hg; simp at hg⟩
        | succ n =>
          rw [List.replicate_succ, cleanStep_dd_cons, if_pos rfl]
          exact ⟨[], n + 2, by simp [List.replicate_succ], by intro g hg; simp at hg⟩
      | cons g a' =>
        have hg : goodSeg g := ha g (by simp)
        rw [List.cons_append, cleanStep_dd_cons, if_neg hg.2.2.2]
        exact ⟨a', k, rfl, fun x hx => ha x (List.mem_cons_of_mem g hx)⟩
    · have hgood : goodSeg e := by
        refine ⟨?_, he, ?_, hdd⟩
        · intro h; exact hskip (Or.inl h)
        · intro h; exact hskip (Or.inr h)
      rw [cleanStep_good false _ e hgood]
      exact ⟨e :: a, k, rfl, by
        intro x hx
        rcases List.mem_cons.mp hx with h | h
        · exact h ▸ hgood
        · exact ha x h⟩

theorem foldl_shapeRel (pieces : List (List Char))
    (h : ∀ e ∈ pieces, '/' ∉ e) :
    ∀ st, ShapeRel st → ShapeRel (List.foldl (cleanStep false) st pieces) := by
  induction pieces with
  | nil => intro st hst; exact hst
  | cons e t ih =>
    intro st hst
    rw [List.foldl_cons]
    exact ih (fun x hx => h x (List.mem_cons_of_mem e hx)) _
      (shapeRel_step st e hst (h e (by simp)))

theorem shapeAbs_step (st : List (List Char)) (e : List Char)
    (hst : goodElems st) (he : '/' ∉ e) : goodElems (cleanStep true st e) := by
  by_cases hskip : e = [] ∨ e = ['.']
  · rw [cleanStep_skip _ _ _ hskip]; exact hst
  · by_cases hdd : e = ddots
    · subst hdd
      cases st with
      | nil =>
        rw [cleanStep_dd_nil, if_pos rfl]
        intro g hg; simp at hg
      | cons g st' =>
        have hg : goodSeg g := hst g (by simp)
        rw [cleanStep_dd_cons, if_neg hg.2.2.2]
        exact fun x hx => hst x (List.mem_cons_of_mem g hx)
    · have hgood : goodSeg e :=
        ⟨fun h => hskip (Or.inl h), he, fun h => hskip (Or.inr h), hdd⟩
      rw [cleanStep_good true _ e hgood]
      intro x hx
      rcases List.mem_cons.mp hx with h | h
      · exact h ▸ hgood
      · exact hst x h

theorem foldl_shapeAbs (pieces : List (List Char))
    (h : ∀ e ∈ pieces, '/' ∉ e) :
    ∀ st, goodElems st → goodElems (List.foldl (cleanStep true) st pieces) := by
  induction pieces with
  | nil => intro st hst; exact hst
  | cons e t ih =>
    intro st hst
    rw [List.foldl_cons]
    exact ih (fun x hx => h x (List.mem_cons_of_mem e hx)) _
      (shapeAbs_step st e hst (h e (by simp)))

/-! ## Lemmas: canonical shape of cleaned paths -/

theorem rootedOf_nil : rootedOf [] = false := rfl

theorem rootedOf_cons (c : Char) (t : List Char) :
    rootedOf (c :: t) = (c = '/' : Bool) := by
  simp [rootedOf]

theorem cleanL_expand (l : List Char) :
    cleanL l =
      if rootedOf l then
        '/' :: joinSl (((splitSl l).foldl (cleanStep (rootedOf l)) []).reverse)
      else if (((splitSl l).foldl (cleanStep (rootedOf l)) []).reverse) = [] then ['.']
      else joinSl (((splitSl l).foldl (cleanStep (rootedOf l)) []).reverse) := rfl

theorem goodElems_reverse (l : List (List Char)) (h : goodElems l) :
    goodElems l.reverse := fun g hg => h g (List.mem_reverse.mp hg)

theorem goodElems_nil : goodElems [] := fun g hg => by simp at hg

theorem canon_elem_ok (k : Nat) (gs : List (List Char)) (hg : goodElems gs) :
    ∀ e ∈ List.replicate k ddots ++ gs, e ≠ [] ∧ '/' ∉ e := by
  intro e he
  rcases List.mem_append.mp he with h | h
  · have := List.eq_of_mem_replicate h
    subst this
    exact ⟨by simp [ddots], by simp [ddots]⟩
  · exact ⟨(hg e h).1, (hg e h).2.1⟩

theorem joinSl_canon_head (es : List (List Char)) (hne : es ≠ [])
    (h : ∀ e ∈ es, e ≠ [] ∧ '/' ∉ e) :
    ∃ c t, joinSl es = c :: t ∧ ¬ c = '/' := by
  cases es with
  | nil => exact absurd rfl hne
  | cons e rest =>
    have he := h e (by simp)
    cases e with
    | nil => exact absurd rfl he.1
    | cons c e' =>
      obtain ⟨t, ht⟩ := joinSl_head c e' rest
      exact ⟨c, t, ht, fun hc => he.2 (hc ▸ List.mem_cons_self c e')⟩

theorem cleanL_shape (l : List Char) :
    (rootedOf l = true ∧ ∃ gs, goodElems gs ∧ cleanL l = '/' :: joinSl gs)
    ∨ (rootedOf l = false ∧
        (cleanL l = ['.']
          ∨ ∃ k gs, goodElems gs ∧ ¬ (k = 0 ∧ gs = []) ∧
              cleanL l = joinSl (List.replicate k ddots ++ gs))) := by
  by_cases hr : rootedOf l = true
  · left
    refine ⟨hr, ((List.foldl (cleanStep (rootedOf l)) [] (splitSl l)).reverse), ?_, ?_⟩
    · rw [hr]
      exact goodElems_reverse _
        (foldl_shapeAbs (splitSl l) (splitSl_pieces_no_slash l) [] goodElems_nil)
    · rw [cleanL_expand, if_pos hr]
  · right
    have hr' : rootedOf l = false := by
      cases h : rootedOf l
      · rfl
      · exact absurd h hr
    refine ⟨hr', ?_⟩
    have hshape : ShapeRel (List.foldl (cleanStep false) [] (splitSl l)) :=
      foldl_shapeRel (splitSl l) (splitSl_pieces_no_slash l) []
        ⟨[], 0, rfl, goodElems_nil⟩
    obtain ⟨a, k, hst, ha⟩ := hshape
    rw [cleanL_expand, if_neg hr, hr', hst]
    by_cases hnil : (a ++ List.replicate k ddots).reverse = []
    · left; rw [if_pos hnil]
    · right
      rw [if_neg hnil]
      refine ⟨k, a.reverse, goodElems_reverse a ha, ?_, ?_⟩
      · intro ⟨hk, har⟩
        apply hnil
        have : a = [] := by simpa using har
        rw [this, hk]; rfl
      · rw [List.reverse_append, List.reverse_replicate]

theorem cleanL_canonRel (k : Nat) (gs : List (List Char)) (hg : goodElems gs)
    (hne : ¬ (k = 0 ∧ gs = [])) (t : List Char) (ht : t = [] ∨ t = ['/']) :
    cleanL (joinSl (List.replicate k ddots ++ gs) ++ t) =
      joinSl (List.replicate k ddots ++ gs) := by
  set es := List.replicate k ddots ++ gs with hes
  have hesne : es ≠ [] := by
    intro h
    rcases List.append_eq_nil.mp h with ⟨h1, h2⟩
    exact hne ⟨by simpa using congrArg List.length h1, h2⟩
  have hok : ∀ e ∈ es, e ≠ [] ∧ '/' ∉ e := canon_elem_ok k gs hg
  obtain ⟨c, tl, hhead, hc⟩ := joinSl_canon_head es hesne hok
  have hsplit : splitSl (joinSl es ++ t) = es ++ (if t = [] then [] else [[]]) := by
    rcases ht with h | h
    · subst h
      rw [List.append_nil, splitSl_joinSl es hesne (fun e he => (hok e he).2), if_pos rfl]
      rw [List.append_nil]
    · subst h
      rw [show (['/'] : List Char) = '/' :: [] from rfl, splitSl_append_slash,
        splitSl_joinSl es hesne (fun e he => (hok e he).2)]
      rfl
  have hrooted : rootedOf (joinSl es ++ t) = false := by
    rw [hhead, List.cons_append, rootedOf_cons]
    simp [hc]
  rw [cleanL_expand, hrooted, if_neg (by simp), hsplit]
  have hfold : List.foldl (cleanStep false) [] (es ++ (if t = [] then [] else [[]])) =
      gs.reverse ++ List.replicate k ddots := by
    rw [List.foldl_append, hes, foldl_cleanStep_canon k gs hg]
    rcases ht with h | h
    · subst h; rw [if_pos rfl]; rfl
    · subst h
      rw [if_neg (by simp), List.foldl_cons,
        cleanStep_skip false _ [] (Or.inl rfl)]
      rfl
  rw [hfold, List.reverse_append, List.reverse_replicate, List.reverse_reverse]
  rw [if_neg (by rw [← hes]; exact hesne)]

theorem cleanL_canonAbs (gs : List (List Char)) (hg : goodElems gs)
    (t : List Char) (ht : t = [] ∨ t = ['/']) :
    cleanL (('/' :: joinSl gs) ++ t) = '/' :: joinSl gs := by
  by_cases hgs : gs = []
  · subst hgs
    rcases ht with h | h
    · subst h; rfl
    · subst h; rfl
  · have hslash : ∀ e ∈ gs, '/' ∉ e := fun e he => (hg e he).2.1
    have hrooted : rootedOf (('/' :: joinSl gs) ++ t) = true := by
      rw [List.cons_append, rootedOf_cons]; simp
    have hsplit : splitSl (('/' :: joinSl gs) ++ t) =
        [] :: (gs ++ (if t = [] then [] else [[]])) := by
      rcases ht with h | h
      · subst h
        rw [List.append_nil, splitSl_cons, if_pos rfl,
          splitSl_joinSl gs hgs hslash, if_pos rfl, List.append_nil]
      · subst h
        rw [List.cons_append, splitSl_cons, if_pos rfl,
          show (['/'] : List Char) = '/' :: [] from rfl, splitSl_append_slash,
          splitSl_joinSl gs hgs hslash, if_neg (by simp)]
        rfl
    rw [cleanL_expand, hrooted, if_pos rfl, hsplit]
    have hfold : List.foldl (cleanStep true)
        [] ([] :: (gs ++ (if t = [] then [] else [[]]))) = gs.reverse := by
      rw [List.foldl_cons, cleanStep_skip true [] [] (Or.inl rfl), List.foldl_append,
        foldl_cleanStep_goods true gs hg]
      rcases ht with h | h
      · subst h
        rw [if_pos rfl]
        simp
      · subst h
        rw [if_neg (by simp), List.foldl_cons, cleanStep_skip true _ [] (Or.inl rfl)]
        simp
    rw [hfold, List.reverse_reverse]

/-! ## Lemmas: `pdir` and `pbase` on canonical forms -/

theorem strExt (a b : String) (h : a.data = b.data) : a = b := by
  cases a; cases b; cases h; rfl

theorem ofChars_data (l : List Char) : (ofChars l).data = l := rfl

theorem ofChars_ne_empty (l : List Char) (h : l ≠ []) : ofChars l ≠ "" := by
  intro he
  exact h (congrArg String.data he)

theorem dropWhile_of_all {α : Type} (p : α → Bool) (l : List α)
    (h : ∀ c ∈ l, p c = true) : l.dropWhile p = [] := by
  induction l with
  | nil => rfl
  | cons c t ih =>
    rw [List.dropWhile_cons, if_pos (h c (by simp))]
    exact ih (fun x hx => h x (List.mem_cons_of_mem c hx))

theorem dropWhile_append_all {α : Type} (p : α → Bool) (a b : List α)
    (h : ∀ c ∈ a, p c = true) : (a ++ b).dropWhile p = b.dropWhile p := by
  induction a with
  | nil => rfl
  | cons c t ih =>
    rw [List.cons_append, List.dropWhile_cons, if_pos (h c (by simp))]
    exact ih (fun x hx => h x (List.mem_cons_of_mem c hx))

theorem takeWhile_of_all {α : Type} (p : α → Bool) (l : List α)
    (h : ∀ c ∈ l, p c = true) : l.takeWhile p = l := by
  induction l with
  | nil => rfl
  | cons c t ih =>
    rw [List.takeWhile_cons, if_pos (h c (by simp))]
    exact congrArg _ (ih (fun x hx => h x (List.mem_cons_of_mem c hx)))

theorem takeWhile_append_all {α : Type} (p : α → Bool) (a b : List α)
    (h : ∀ c ∈ a, p c = true) : (a ++ b).takeWhile p = a ++ b.takeWhile p := by
  induction a with
  | nil => rfl
  | cons c t ih =>
    rw [List.cons_append, List.takeWhile_cons, if_pos (h c (by simp))]
    exact congrArg _ (ih (fun x hx => h x (List.mem_cons_of_mem c hx)))

theorem dirChars_no_slash (cs : List Char) (h : '/' ∉ cs) : dirChars cs = [] := by
  rw [dirChars, dropWhile_of_all _ _ (by
    intro c hc
    have : c ∈ cs := List.mem_reverse.mp hc
    simp only [decide_eq_true_eq]
    intro he
    exact h (he ▸ this))]
  rfl

theorem dirChars_append (a b : List Char) (h : '/' ∉ b) :
    dirChars (a ++ '/' :: b) = a ++ ['/'] := by
  rw [dirChars, List.reverse_append, List.reverse_cons,
    List.append_assoc, dropWhile_append_all _ _ _ (by
      intro c hc
      have : c ∈ b := List.mem_reverse.mp hc
      simp only [decide_eq_true_eq]
      intro he
      exact h (he ▸ this)), List.singleton_append, List.dropWhile_cons,
    if_neg (by simp), List.reverse_cons, List.reverse_reverse]

theorem pbase_no_slash (cs : List Char) (hne : cs ≠ []) (h : '/' ∉ cs) :
    pbase (ofChars cs) = ofChars cs := by
  obtain ⟨c, t, hr⟩ : ∃ c t, cs.reverse = c :: t := by
    cases hr : cs.reverse with
    | nil => exact absurd (by simpa using hr) hne
    | cons c t => exact ⟨c, t, rfl⟩
  have hc : c ∈ cs := List.mem_reverse.mp (hr ▸ List.mem_cons_self c t)
  have hcs : ¬ c = '/' := fun he => h (he ▸ hc)
  rw [pbase, if_neg (ofChars_ne_empty cs hne), ofChars_data]
  have hdrop : List.dropWhile (fun c => c = '/') cs.reverse = cs.reverse := by
    rw [hr, List.dropWhile_cons, if_neg (by simpa using hcs)]
  rw [hdrop, if_neg (by rw [hr]; simp),
    takeWhile_of_all _ _ (by
      intro x hx
      have : x ∈ cs := List.mem_reverse.mp hx
      simp only [decide_eq_true_eq]
      intro he
      exact h (he ▸ this)), List.reverse_reverse]

theorem pbase_append (a b : List Char) (hne : b ≠ []) (h : '/' ∉ b) :
    pbase (ofChars (a ++ '/' :: b)) = ofChars b := by
  obtain ⟨c, t, hr⟩ : ∃ c t, b.reverse = c :: t := by
    cases hr : b.reverse with
    | nil => exact absurd (by simpa using hr) hne
    | cons c t => exact ⟨c, t, rfl⟩
  have hc : c ∈ b := List.mem_reverse.mp (hr ▸ List.mem_cons_self c t)
  have hcs : ¬ c = '/' := fun he => h (he ▸ hc)
  have hnoslash : ∀ x ∈ b.reverse, (fun x => decide ¬ x = '/') x = true := by
    intro x hx
    have : x ∈ b := List.mem_reverse.mp hx
    simp only [decide_eq_true_eq]
    intro he
    exact h (he ▸ this)
  rw [pbase, if_neg (ofChars_ne_empty _ (by simp)), ofChars_data]
  have hrev : (a ++ '/' :: b).reverse = b.reverse ++ '/' :: a.reverse := by
    rw [List.reverse_append, List.reverse_cons, List.append_assoc,
      List.singleton_append]
  rw [hrev]
  have hdrop : List.dropWhile (fun c => c = '/') (b.reverse ++ '/' :: a.reverse) =
      b.reverse ++ '/' :: a.reverse := by
    rw [hr, List.cons_append, List.dropWhile_cons, if_neg (by simpa using hcs)]
  rw [hdrop, if_neg (by rw [hr]; simp),
    takeWhile_append_all _ _ _ hnoslash, List.takeWhile_cons, if_neg (by simp),
    List.append_nil, List.reverse_reverse]

theorem mem_of_mem_dropLast {α : Type} (l : List α) (x : α)
    (h : x ∈ l.dropLast) : x ∈ l :=
  (List.dropLast_sublist l).mem h

theorem canon_dropLast (k : Nat) (gs : List (List Char)) (hg : goodElems gs)
    (h2 : 2 ≤ (List.replicate k ddots ++ gs).length) :
    ∃ k' gs', goodElems gs' ∧ ¬ (k' = 0 ∧ gs' = []) ∧
      (List.replicate k ddots ++ gs).dropLast = List.replicate k' ddots ++ gs' := by
  rcases gs with _ | ⟨g, rest⟩
  · have hk : 2 ≤ k := by simpa using h2
    refine ⟨k - 1, [], goodElems_nil, by omega, ?_⟩
    rw [List.append_nil, List.append_nil]
    conv_lhs => rw [show k = (k - 1) + 1 by omega, List.replicate_succ',
      List.dropLast_concat]
  · have hne : (g :: rest : List (List Char)) ≠ [] := by simp
    refine ⟨k, (g :: rest).dropLast,
      fun x hx => hg x (mem_of_mem_dropLast _ x hx), ?_, ?_⟩
    · intro ⟨hk, hd⟩
      subst hk
      have hrest : rest = [] := by
        cases rest with
        | nil => rfl
        | cons a b => simp [List.dropLast] at hd
      rw [hrest] at h2
      simp at h2
    · conv_lhs => rw [← List.dropLast_append_getLast hne, ← List.append_assoc,
        List.dropLast_concat]

theorem pdir_join_single (e : List Char) (h : '/' ∉ e) :
    pdir (ofChars (joinSl [e])) = "." := by
  have : joinSl [e] = e := rfl
  rw [pdir, ofChars_data, this, dirChars_no_slash e h]
  rfl

theorem pdir_join_multi (init : List (List Char)) (last : List Char) (hne : init ≠ [])
    (hl : '/' ∉ last) :
    pdir (ofChars (joinSl (init ++ [last]))) =
      ofChars (cleanL (joinSl init ++ ['/'])) := by
  rw [pdir, ofChars_data, joinSl_append_last init last hne, dirChars_append _ _ hl]

theorem pbase_join_single (e : List Char) (hne : e ≠ []) (h : '/' ∉ e) :
    pbase (ofChars (joinSl [e])) = ofChars e := by
  have : joinSl [e] = e := rfl
  rw [this, pbase_no_slash e hne h]

theorem pbase_join_multi (init : List (List Char)) (last : List Char) (hne : init ≠ [])
    (hlne : last ≠ []) (hl : '/' ∉ last) :
    pbase (ofChars (joinSl (init ++ [last]))) = ofChars last := by
  rw [joinSl_append_last init last hne, pbase_append _ _ hlne hl]

theorem pdir_abs_nil : pdir (ofChars ('/' :: joinSl [])) = ofChars ['/'] := rfl

theorem pdir_abs_single (g : List Char) (h : '/' ∉ g) :
    pdir (ofChars ('/' :: joinSl [g])) = ofChars ['/'] := by
  have h1 : ('/' :: joinSl [g]) = [] ++ '/' :: g := rfl
  rw [pdir, ofChars_data, h1, dirChars_append [] g h]
  rfl

theorem pdir_abs_multi (init : List (List Char)) (last : List Char) (hne : init ≠ [])
    (hl : '/' ∉ last) :
    pdir (ofChars ('/' :: joinSl (init ++ [last]))) =
      ofChars (cleanL (('/' :: joinSl init) ++ ['/'])) := by
  have h1 : ('/' :: joinSl (init ++ [last])) = ('/' :: joinSl init) ++ '/' :: last := by
    rw [joinSl_append_last init last hne]; rfl
  rw [pdir, ofChars_data, h1, dirChars_append _ _ hl]

theorem pbase_abs_nil : pbase (ofChars ('/' :: joinSl [])) = ofChars ['/'] := rfl

theorem pbase_abs_single (g : List Char) (hne : g ≠ []) (h : '/' ∉ g) :
    pbase (ofChars ('/' :: joinSl [g])) = ofChars g := by
  have h1 : ofChars ('/' :: joinSl [g]) = ofChars ([] ++ '/' :: g) := rfl
  rw [h1, pbase_append [] g hne h]

theorem pbase_abs_multi (init : List (List Char)) (last : List Char) (hne : init ≠ [])
    (hlne : last ≠ []) (hl : '/' ∉ last) :
    pbase (ofChars ('/' :: joinSl (init ++ [last]))) = ofChars last := by
  have h1 : ofChars ('/' :: joinSl (init ++ [last])) =
      ofChars (('/' :: joinSl init) ++ '/' :: last) := by
    rw [joinSl_append_last init last hne]; rfl
  rw [h1, pbase_append _ _ hlne hl]

/-! ## Lemmas: joining a path's dir and base gives the path back -/

theorem cleanL_ne_nil (l : List Char) : cleanL l ≠ [] := by
  intro h
  rcases cleanL_shape l with ⟨_, gs, _, hq⟩ | ⟨_, hq | ⟨k, gs, hg, hne, hq⟩⟩
  · rw [hq] at h; simp at h
  · rw [hq] at h; simp at h
  · rw [hq] at h
    have hok := canon_elem_ok k gs hg
    cases hes : (List.replicate k ddots ++ gs) with
    | nil =>
      rcases List.append_eq_nil.mp hes with ⟨h1, h2⟩
      exact hne ⟨by simpa using congrArg List.length h1, h2⟩
    | cons e rest =>
      rw [hes] at h
      exact joinSl_ne_nil e rest (hok e (hes ▸ List.mem_cons_self e rest)).1 h

theorem clean_ne_empty (s : String) : clean s ≠ "" :=
  ofChars_ne_empty _ (cleanL_ne_nil s.data)

theorem pdir_ne_empty (s : String) : pdir s ≠ "" :=
  ofChars_ne_empty _ (cleanL_ne_nil (dirChars s.data))

theorem clean_data (s : String) : (clean s).data = cleanL s.data := rfl

theorem rootedOf_append (a b : List Char) (ha : a ≠ []) :
    rootedOf (a ++ b) = rootedOf a := by
  cases a with
  | nil => exact absurd rfl ha
  | cons c t => rfl

theorem cleanL_congr (l1 l2 : List Char) (hr : rootedOf l1 = rootedOf l2)
    (hst : List.foldl (cleanStep (rootedOf l2)) [] (splitSl l1) =
      List.foldl (cleanStep (rootedOf l2)) [] (splitSl l2)) :
    cleanL l1 = cleanL l2 := by
  rw [cleanL_expand l1, cleanL_expand l2, hr, hst]

theorem foldl_skip_cons (r0 : Bool) (st : List (List Char)) (e : List Char)
    (l : List (List Char)) (he : e = [] ∨ e = ['.']) :
    List.foldl (cleanStep r0) st (e :: l) = List.foldl (cleanStep r0) st l := by
  rw [List.foldl_cons, cleanStep_skip _ _ _ he]

theorem cleanL_idem (l : List Char) : cleanL (cleanL l) = cleanL l := by
  rcases cleanL_shape l with ⟨_, gs, hg, hq⟩ | ⟨_, hq | ⟨k, gs, hg, hne, hq⟩⟩
  · rw [hq]
    have := cleanL_canonAbs gs hg [] (Or.inl rfl)
    rw [List.append_nil] at this
    exact this
  · rw [hq]; rfl
  · rw [hq]
    have := cleanL_canonRel k gs hg (fun h => hne ⟨h.1, h.2⟩) [] (Or.inl rfl)
    rw [List.append_nil] at this
    exact this

theorem pjoin_cons (x : String) (rest : List String) (hx : x ≠ "") :
    pjoin (x :: rest) = clean (ofChars (joinSl ((x :: rest).map String.data))) := by
  unfold pjoin
  rw [List.dropWhile_cons, if_neg (by simpa using hx)]

theorem pjoin_two (x y : String) (hx : x ≠ "") :
    pjoin [x, y] = ofChars (cleanL (x.data ++ '/' :: y.data)) := by
  rw [pjoin_cons x [y] hx]; rfl

theorem pjoin_three (x y z : String) (hx : x ≠ "") :
    pjoin [x, y, z] =
      ofChars (cleanL (x.data ++ '/' :: (y.data ++ '/' :: z.data))) := by
  rw [pjoin_cons x [y, z] hx]; rfl

theorem splitSl_dot_slash (l : List Char) :
    splitSl ('.' :: '/' :: l) = ['.'] :: splitSl l := by
  rw [splitSl_cons, if_neg (by simp), splitSl_cons, if_pos rfl, List.modifyHead_cons]

theorem cleanL_insert_dot (xd yd : List Char) (hx : xd ≠ []) :
    cleanL (xd ++ '/' :: ('.' :: '/' :: yd)) = cleanL (xd ++ '/' :: yd) := by
  apply cleanL_congr
  · rw [rootedOf_append _ _ hx, rootedOf_append _ _ hx]
  · rw [splitSl_append_slash, splitSl_append_slash, splitSl_dot_slash,
      List.foldl_append, List.foldl_append,
      foldl_skip_cons _ _ _ _ (Or.inr rfl)]

theorem pjoin_mid_dot (x y : String) (hx : x ≠ "") :
    pjoin [x, ".", y] = pjoin [x, y] := by
  rw [pjoin_three x "." y hx, pjoin_two x y hx]
  exact congrArg ofChars
    (cleanL_insert_dot x.data y.data (fun h => hx (congrArg ofChars h)))

theorem rootedOf_of_no_slash (l : List Char) (h : '/' ∉ l) : rootedOf l = false := by
  cases l with
  | nil => rfl
  | cons c t =>
    rw [rootedOf_cons]
    simp only [decide_eq_false_iff_not]
    intro hc
    exact h (hc ▸ List.mem_cons_self c t)

theorem rootedOf_joinSl_canon (es : List (List Char)) (hne : es ≠ [])
    (h : ∀ e ∈ es, e ≠ [] ∧ '/' ∉ e) : rootedOf (joinSl es) = false := by
  obtain ⟨c, t, hj, hc⟩ := joinSl_canon_head es hne h
  rw [hj, rootedOf_cons]
  simp [hc]

/-- Core of the dir/base round trip: gluing `pdir` and `pbase` of a
cleaned path back together with a '/' yields a string with the same
rootedness whose elements clean to the same stack as the original. -/
theorem dirbase_core (r : String) :
    rootedOf ((pdir (clean r)).data ++ '/' :: (pbase (clean r)).data)
        = rootedOf (clean r).data
    ∧ ∀ (r0 : Bool) (st : List (List Char)),
        List.foldl (cleanStep r0) st
            (splitSl ((pdir (clean r)).data ++ '/' :: (pbase (clean r)).data)) =
        List.foldl (cleanStep r0) st (splitSl (clean r).data) := by
  rcases cleanL_shape r.data with ⟨hroot, gs, hg, hq⟩ | ⟨hroot, hq | ⟨k, gs, hg, hne, hq⟩⟩
  · -- rooted path
    have hc : clean r = ofChars ('/' :: joinSl gs) :=
      strExt _ _ (by rw [clean_data, hq]; rfl)
    rw [hc]
    rcases List.eq_nil_or_concat gs with hgs | ⟨init, last, hgs⟩
    · subst hgs
      refine ⟨rfl, fun r0 st => rfl⟩
    · rw [List.concat_eq_append] at hgs
      subst hgs
      have hlast : goodSeg last := hg last (by simp)
      by_cases hinit : init = []
      · subst hinit
        rw [List.nil_append, pdir_abs_single last hlast.2.1,
          pbase_abs_single last hlast.1 hlast.2.1]
        have hsl : splitSl last = [last] := splitSl_no_slash last hlast.2.1
        refine ⟨rfl, fun r0 st => ?_⟩
        have h1 : splitSl ((ofChars ['/']).data ++ '/' :: (ofChars last).data) =
            [] :: [] :: [last] := by
          rw [ofChars_data, ofChars_data, List.singleton_append, splitSl_cons,
            if_pos rfl, splitSl_cons, if_pos rfl, hsl]
        have h2 : splitSl (ofChars ('/' :: joinSl [last])).data = [] :: [last] := by
          rw [ofChars_data, splitSl_cons, if_pos rfl,
            show joinSl [last] = last from rfl, hsl]
        rw [h1, h2, foldl_skip_cons _ _ [] _ (Or.inl rfl),
          foldl_skip_cons _ _ [] _ (Or.inl rfl)]
      · have hginit : goodElems init := fun x hx => hg x (List.mem_append_left _ hx)
        have hxd : pdir (ofChars ('/' :: joinSl (init ++ [last]))) =
            ofChars ('/' :: joinSl init) := by
          rw [pdir_abs_multi init last hinit hlast.2.1,
            cleanL_canonAbs init hginit ['/'] (Or.inr rfl)]
        rw [hxd, pbase_abs_multi init last hinit hlast.1 hlast.2.1]
        have hinitok : ∀ e ∈ init, '/' ∉ e := fun e he => (hginit e he).2.1
        have hallok : ∀ e ∈ init ++ [last], '/' ∉ e := by
          intro e he
          rcases List.mem_append.mp he with h | h
          · exact hinitok e h
          · rw [List.mem_singleton.mp h]; exact hlast.2.1
        have h1 : splitSl ((ofChars ('/' :: joinSl init)).data ++ '/' ::
            (ofChars last).data) = [] :: (init ++ [last]) := by
          rw [ofChars_data, ofChars_data, List.cons_append, splitSl_cons, if_pos rfl,
            splitSl_append_slash, splitSl_joinSl init hinit hinitok,
            splitSl_no_slash last hlast.2.1]
        have h2 : splitSl (ofChars ('/' :: joinSl (init ++ [last]))).data =
            [] :: (init ++ [last]) := by
          rw [ofChars_data, splitSl_cons, if_pos rfl,
            splitSl_joinSl (init ++ [last]) (by simp) hallok]
        exact ⟨rfl, fun r0 st => by rw [h1, h2]⟩
  · -- "." path
    have hc : clean r = ofChars ['.'] := strExt _ _ (by rw [clean_data, hq]; rfl)
    rw [hc]
    exact ⟨rfl, fun r0 st => rfl⟩
  · -- unrooted canonical path
    have hc : clean r = ofChars (joinSl (List.replicate k ddots ++ gs)) :=
      strExt _ _ (by rw [clean_data, hq]; rfl)
    have hok := canon_elem_ok k gs hg
    have hesne : List.replicate k ddots ++ gs ≠ [] := by
      intro h
      rcases List.append_eq_nil.mp h with ⟨h1, h2⟩
      exact hne ⟨by simpa using congrArg List.length h1, h2⟩
    rw [hc]
    rcases List.eq_nil_or_concat (List.replicate k ddots ++ gs) with hes | ⟨init, last, hes⟩
    · exact absurd hes hesne
    · rw [List.concat_eq_append] at hes
      have hlastok : last ≠ [] ∧ '/' ∉ last := hok last (by rw [hes]; simp)
      rw [hes]
      by_cases hinit : init = []
      · subst hinit
        rw [List.nil_append, pdir_join_single last hlastok.2,
          pbase_join_single last hlastok.1 hlastok.2]
        have hsl : splitSl last = [last] := splitSl_no_slash last hlastok.2
        constructor
        · have h1 : rootedOf ((String.data ".") ++ '/' :: (ofChars last).data) = false := rfl
          rw [h1, ofChars_data, show joinSl [last] = last from rfl,
            rootedOf_of_no_slash last hlastok.2]
        · intro r0 st
          have h1 : splitSl ((String.data ".") ++ '/' :: (ofChars last).data) =
              ['.'] :: [last] := by
            rw [ofChars_data, show (String.data ".") = ['.'] from rfl,
              List.singleton_append, splitSl_dot_slash, hsl]
          have h2 : splitSl (ofChars (joinSl [last])).data = [last] := by
            rw [ofChars_data, show joinSl [last] = last from rfl, hsl]
          rw [h1, h2, foldl_skip_cons _ _ _ _ (Or.inr rfl)]
      · have hinitok : ∀ e ∈ init, e ≠ [] ∧ '/' ∉ e := by
          intro e he
          exact hok e (hes ▸ List.mem_append_left _ he)
        have hlen2 : 2 ≤ (List.replicate k ddots ++ gs).length := by
          rw [hes, List.length_append, List.length_singleton]
          cases hi : init with
          | nil => exact absurd hi hinit
          | cons a b => simp
        obtain ⟨k', gs', hg', hne', hdl⟩ := canon_dropLast k gs hg hlen2
        have hinit_eq : init = List.replicate k' ddots ++ gs' := by
          rw [← hdl, hes, List.dropLast_concat]
        have hxd : pdir (ofChars (joinSl (init ++ [last]))) = ofChars (joinSl init) := by
          rw [pdir_join_multi init last hinit hlastok.2]
          apply congrArg ofChars
          rw [hinit_eq]
          exact cleanL_canonRel k' gs' hg' hne' ['/'] (Or.inr rfl)
        rw [hxd, pbase_join_multi init last hinit hlastok.1 hlastok.2]
        have hinitslash : ∀ e ∈ init, '/' ∉ e := fun e he => (hinitok e he).2
        have hallok : ∀ e ∈ init ++ [last], '/' ∉ e := by
          intro e he
          rcases List.mem_append.mp he with h | h
          · exact hinitslash e h
          · rw [List.mem_singleton.mp h]; exact hlastok.2
        have hjne : joinSl init ≠ [] := by
          cases hi : init with
          | nil => exact absurd hi hinit
          | cons a b =>
            exact joinSl_ne_nil a b (hinitok a (hi ▸ List.mem_cons_self a b)).1
        have h1 : splitSl ((ofChars (joinSl init)).data ++ '/' ::
            (ofChars last).data) = init ++ [last] := by
          rw [ofChars_data, ofChars_data, splitSl_append_slash,
            splitSl_joinSl init hinit hinitslash, splitSl_no_slash last hlastok.2]
        have h2 : splitSl (ofChars (joinSl (init ++ [last]))).data = init ++ [last] := by
          rw [ofChars_data, splitSl_joinSl (init ++ [last]) (by simp) hallok]
        constructor
        · rw [ofChars_data, ofChars_data, ofChars_data,
            rootedOf_append _ _ hjne,
            rootedOf_joinSl_canon init hinit hinitok,
            rootedOf_joinSl_canon (init ++ [last]) (by simp) (by
              intro e he
              rcases List.mem_append.mp he with h | h
              · exact hinitok e h
              · rw [List.mem_singleton.mp h]; exact hlastok)]
        · intro r0 st
          rw [h1, h2]

/-- Rejoining `pdir p` and `pbase p` of a cleaned path `p` gives `p`
back. -/
theorem pjoin_pdir_pbase (r : String) :
    pjoin [pdir (clean r), pbase (clean r)] = clean r := by
  rw [pjoin_two _ _ (pdir_ne_empty _)]
  apply strExt
  rw [ofChars_data]
  have h1 : cleanL ((pdir (clean r)).data ++ '/' :: (pbase (clean r)).data) =
      cleanL ((clean r).data) :=
    cleanL_congr _ _ (dirbase_core r).1 ((dirbase_core r).2 _ [])
  rw [h1, clean_data, cleanL_idem]

/-- The resolver's final `path.Join(matchedImp, matchedRel, base)` in
the fallback case (`matchedRel = "."`) reproduces the cleaned proto
path. -/
theorem pjoin_dir_dot_base (r : String) :
    pjoin [pdir (clean r), ".", pbase (clean r)] = clean r := by
  rw [pjoin_mid_dot _ _ (pdir_ne_empty _), pjoin_pdir_pbase]

/-- The resolver's final `path.Join(imp, Dir(p), Base(p))` equals
`path.Join(imp, p)` for the cleaned proto path `p`. -/
theorem pjoin_entry_dir_base (s r : String) (hs : s ≠ "") :
    pjoin [s, pdir (clean r), pbase (clean r)] = pjoin [s, clean r] := by
  rw [pjoin_three s _ _ hs, pjoin_two s _ hs]
  apply congrArg ofChars
  apply cleanL_congr
  · have hsd : s.data ≠ [] := fun h => hs (congrArg ofChars h)
    rw [rootedOf_append _ _ hsd, rootedOf_append _ _ hsd]
  · conv_lhs => rw [splitSl_append_slash, List.foldl_append]
    conv_rhs => rw [splitSl_append_slash, List.foldl_append]
    exact (dirbase_core r).2 _ _

/-! ## Lemmas: the resolver -/

theorem entryStep_of_rel (fs : FS) (wd p imp : String) (hp : isAbs p = false) :
    entryStep fs wd p imp =
      if (statKind fs wd (pjoin [clean imp, p])).isSome
      then some (clean imp, pdir p) else none := by
  unfold entryStep
  rw [hp]
  rfl

theorem entryStep_of_abs (fs : FS) (wd p imp : String) (hp : isAbs p = true) :
    entryStep fs wd p imp =
      match relGo (goAbs wd (clean imp)) p with
      | .error _ => none
      | .ok relPath =>
        if relPath ≠ "" ∧ startsWithStr relPath "../" = false then
          if (statKind fs wd (pjoin [clean imp, pdir relPath, pbase p])).isSome
          then some (clean imp, pdir relPath) else none
        else none := by
  unfold entryStep
  rw [hp]
  rfl

theorem entryStep_of_abs_ok (fs : FS) (wd p imp q : String)
    (hp : isAbs p = true)
    (hrel : relGo (goAbs wd (clean imp)) p = .ok q) :
    entryStep fs wd p imp =
      if q ≠ "" ∧ startsWithStr q "../" = false then
        if (statKind fs wd (pjoin [clean imp, pdir q, pbase p])).isSome
        then some (clean imp, pdir q) else none
      else none := by
  rw [entryStep_of_abs fs wd p imp hp, hrel]

theorem entryStep_of_abs_err (fs : FS) (wd p imp e : String)
    (hp : isAbs p = true)
    (hrel : relGo (goAbs wd (clean imp)) p = .error e) :
    entryStep fs wd p imp = none := by
  rw [entryStep_of_abs fs wd p imp hp, hrel]

theorem searchLoop_of_none (fs : FS) (wd p : String) (S : List String)
    (h : ∀ s ∈ S, entryStep fs wd p s = none) : searchLoop fs wd p S = none := by
  induction S with
  | nil => rfl
  | cons imp rest ih =>
    unfold searchLoop
    rw [h imp (by simp)]
    exact ih (fun s hs => h s (List.mem_cons_of_mem imp hs))

theorem searchLoop_first_match (fs : FS) (wd p : String) (S : List String)
    (i : Nat) (s : String) (m : String × String)
    (hs : S.get? i = some s)
    (hfirst : ∀ j t, j < i → S.get? j = some t → entryStep fs wd p t = none)
    (hstep : entryStep fs wd p s = some m) :
    searchLoop fs wd p S = some m := by
  induction S generalizing i with
  | nil => simp at hs
  | cons imp rest ih =>
    cases i with
    | zero =>
      rw [List.get?_cons_zero] at hs
      cases hs
      unfold searchLoop
      rw [hstep]
    | succ n =>
      rw [List.get?_cons_succ] at hs
      unfold searchLoop
      rw [hfirst 0 imp (Nat.succ_pos n) List.get?_cons_zero]
      exact ih n hs (fun j t hj ht =>
        hfirst (j + 1) t (Nat.succ_lt_succ hj) (by rwa [List.get?_cons_succ]))

theorem findProto_of_loop_some (fs : FS) (wd : String) (S : List String)
    (r mi mr : String) (hr : r ≠ "")
    (hloop : searchLoop fs wd (clean r) S = some (mi, mr))
    (hstat : statKind fs wd (pjoin [mi, mr, pbase (clean r)]) = some FKind.file) :
    findProtoInImports fs wd S r = .ok ⟨mi, mr, false⟩ := by
  unfold findProtoInImports findProtoSearch
  rw [if_neg hr, hloop]
  show findProtoFinal fs wd r mi mr false = _
  unfold findProtoFinal
  rw [hstat]

theorem findProto_fallback_ok (fs : FS) (wd : String) (S : List String)
    (r : String) (k : FKind) (hr : r ≠ "")
    (hloop : searchLoop fs wd (clean r) S = none)
    (hstat0 : statKind fs wd (clean r) = some k)
    (hfinal : statKind fs wd (pjoin [pdir (clean r), ".", pbase (clean r)]) =
      some FKind.file) :
    findProtoInImports fs wd S r = .ok ⟨pdir (clean r), ".", true⟩ := by
  unfold findProtoInImports findProtoSearch
  rw [if_neg hr, hloop, hstat0]
  show findProtoFinal fs wd r (pdir (clean r)) "." true = _
  unfold findProtoFinal
  rw [hfinal]

theorem findProto_fallback_err (fs : FS) (wd : String) (S : List String)
    (r : String) (hr : r ≠ "")
    (hloop : searchLoop fs wd (clean r) S = none)
    (hstat0 : statKind fs wd (clean r) = none) :
    findProtoInImports fs wd S r =
      .error ("could not find proto \"" ++ clean r ++ "\" on import path") := by
  unfold findProtoInImports findProtoSearch
  rw [if_neg hr, hloop, hstat0]
  rfl

/-! ## Lemmas: substring containment -/

theorem startsWithL_append (b c : List Char) : startsWithL (b ++ c) b = true := by
  induction b with
  | nil =>
    cases c with
    | nil => rfl
    | cons x t => rfl
  | cons x t ih =>
    rw [List.cons_append]
    unfold startsWithL
    simp [ih]

theorem containsL_nil_needle (l : List Char) : containsL l [] = true := by
  cases l with
  | nil => rfl
  | cons c t => rfl

theorem containsL_append_middle (a b c : List Char) :
    containsL (a ++ b ++ c) b = true := by
  induction a with
  | nil =>
    rw [List.nil_append]
    cases b with
    | nil => exact containsL_nil_needle c
    | cons b0 bt =>
      rw [List.cons_append]
      unfold containsL
      rw [← List.cons_append, startsWithL_append (b0 :: bt) c]
      rfl
  | cons a0 at' ih =>
    rw [List.cons_append, List.cons_append]
    unfold containsL
    simp only [ih, Bool.or_true]

theorem containsStr_append_middle (x y : String) (mid : String) :
    containsStr (x ++ mid ++ y) mid = true := by
  have hdata : (x ++ mid ++ y).data = x.data ++ mid.data ++ y.data := rfl
  rw [containsStr, hdata, containsL_append_middle]

/-! ## Claim C3 -/

/-- C3 counterexample: for the search path entry `"/a/"` and the
absolute reference `"/a/b/x.proto"` (which exists verbatim as a file
under that entry), `findProtoInImports` returns the *cleaned* entry
`"/a"` (not `"/a/"`) and the subpath `"b"` relative to the entry (not
`dirname(r) = "/a/b"`), refuting the claim that the pair
`(s, dirname(r))` is returned. -/
theorem claim_C3_counterexample :
    findProtoInImports
        ⟨[("/a", FKind.dir), ("/a/b", FKind.dir), ("/a/b/x.proto", FKind.file)]⟩
        "/w" ["/a/"] "/a/b/x.proto" = .ok ⟨"/a", "b", false⟩
    ∧ ("/a" : String) ≠ "/a/"
    ∧ ("b" : String) ≠ pdir "/a/b/x.proto" := by
  refine ⟨rfl, by decide, by decide⟩

/-- C3 (amended): for a reference `r` present as a file under the first
matching entry `s` of the search path `S`, the resolver returns the pair
`(Clean(s), d)` where `d` is `dirname(Clean(r))` when `r` is relative,
and the directory part of `r` taken relative to the absolutised entry
when `r` is absolute; earlier entries that do not match are skipped. -/
theorem claim_C3_first_match_resolution (fs : FS) (wd : String) (S : List String)
    (r s : String) (i : Nat)
    (hr : r ≠ "")
    (hs : S.get? i = some s)
    (hfirst : ∀ j t, j < i → S.get? j = some t → entryStep fs wd (clean r) t = none) :
    (isAbs (clean r) = false →
      statKind fs wd (pjoin [clean s, clean r]) = some FKind.file →
      findProtoInImports fs wd S r = .ok ⟨clean s, pdir (clean r), false⟩)
    ∧ (∀ q, isAbs (clean r) = true →
        relGo (goAbs wd (clean s)) (clean r) = .ok q →
        q ≠ "" → startsWithStr q "../" = false →
        statKind fs wd (pjoin [clean s, pdir q, pbase (clean r)]) = some FKind.file →
        findProtoInImports fs wd S r = .ok ⟨clean s, pdir q, false⟩) := by
  constructor
  · intro hrel hfile
    have hstep : entryStep fs wd (clean r) s = some (clean s, pdir (clean r)) := by
      rw [entryStep_of_rel fs wd (clean r) s hrel, hfile]
      rfl
    have hloop := searchLoop_first_match fs wd (clean r) S i s _ hs hfirst hstep
    apply findProto_of_loop_some fs wd S r _ _ hr hloop
    rw [pjoin_entry_dir_base (clean s) r (clean_ne_empty s)]
    exact hfile
  · intro q habs hrel hq hasc hfile
    have hstep : entryStep fs wd (clean r) s = some (clean s, pdir q) := by
      rw [entryStep_of_abs_ok fs wd (clean r) s q habs hrel,
        if_pos ⟨hq, hasc⟩, hfile]
      rfl
    have hloop := searchLoop_first_match fs wd (clean r) S i s _ hs hfirst hstep
    exact findProto_of_loop_some fs wd S r _ _ hr hloop hfile

/-- C3 witness: the amended theorem applied to a concrete filesystem
with the file `/a/b/x.proto`, entry `"/a"` and relative reference
`"b/x.proto"`. -/
theorem claim_C3_witness :
    findProtoInImports
        ⟨[("/a", FKind.dir), ("/a/b", FKind.dir), ("/a/b/x.proto", FKind.file)]⟩
        "/w" ["/a"] "b/x.proto" = .ok ⟨"/a", "b", false⟩ :=
  (claim_C3_first_match_resolution
      ⟨[("/a", FKind.dir), ("/a/b", FKind.dir), ("/a/b/x.proto", FKind.file)]⟩
      "/w" ["/a"] "b/x.proto" "/a" 0 (by decide) rfl
      (fun j t hj _ => absurd hj (Nat.not_lt_zero j))).1 (by decide) (by rfl)

/-! ## Claim C4 -/

/-- C4: for an absolute reference, each search-path entry is made
absolute against the working directory and tested via the lexical
relative-path computation; a match requires the relative path not to
ascend (`../` prefix) and the file to exist at the rejoined path —
verification failure or a `..` ascent makes the loop skip the entry. -/
theorem claim_C4_abs_entry_characterisation (fs : FS) (wd s r : String)
    (habs : isAbs (clean r) = true) :
    (∀ m, entryStep fs wd (clean r) s = some m →
      ∃ q, relGo (goAbs wd (clean s)) (clean r) = .ok q ∧
        q ≠ "" ∧ startsWithStr q "../" = false ∧
        (statKind fs wd (pjoin [clean s, pdir q, pbase (clean r)])).isSome = true ∧
        m = (clean s, pdir q))
    ∧ (∀ q, relGo (goAbs wd (clean s)) (clean r) = .ok q →
        startsWithStr q "../" = true → entryStep fs wd (clean r) s = none)
    ∧ (∀ q, relGo (goAbs wd (clean s)) (clean r) = .ok q →
        statKind fs wd (pjoin [clean s, pdir q, pbase (clean r)]) = none →
        entryStep fs wd (clean r) s = none) := by
  refine ⟨?_, ?_, ?_⟩
  · intro m hm
    cases hrel : relGo (goAbs wd (clean s)) (clean r) with
    | error e =>
      rw [entryStep_of_abs_err fs wd (clean r) s e habs hrel] at hm
      exact absurd hm (by simp)
    | ok q =>
      rw [entryStep_of_abs_ok fs wd (clean r) s q habs hrel] at hm
      by_cases hcond : q ≠ "" ∧ startsWithStr q "../" = false
      · rw [if_pos hcond] at hm
        by_cases hstat : (statKind fs wd (pjoin [clean s, pdir q, pbase (clean r)])).isSome = true
        · rw [if_pos hstat] at hm
          exact ⟨q, rfl, hcond.1, hcond.2, hstat, (Option.some_inj.mp hm).symm⟩
        · rw [if_neg hstat] at hm
          exact absurd hm (by simp)
      · rw [if_neg hcond] at hm
        exact absurd hm (by simp)
  · intro q hrel hasc
    rw [entryStep_of_abs_ok fs wd (clean r) s q habs hrel,
      if_neg (by intro h; rw [hasc] at h; exact absurd h.2 (by simp))]
  · intro q hrel hstat
    rw [entryStep_of_abs_ok fs wd (clean r) s q habs hrel]
    by_cases hcond : q ≠ "" ∧ startsWithStr q "../" = false
    · rw [if_pos hcond, hstat]
      rfl
    · rw [if_neg hcond]

/-- C4 witness: with entry `"/a/b/c"` and reference `"/a/x.proto"` the
relative path `"../../x.proto"` ascends, so the entry is skipped even
though the file exists. -/
theorem claim_C4_witness :
    entryStep ⟨[("/a", FKind.dir), ("/a/x.proto", FKind.file)]⟩
      "/w" (clean "/a/x.proto") "/a/b/c" = none :=
  (claim_C4_abs_entry_characterisation
      ⟨[("/a", FKind.dir), ("/a/x.proto", FKind.file)]⟩
      "/w" "/a/b/c" "/a/x.proto" (by decide)).2.1 "../../x.proto" rfl (by decide)

/-! ## Claim C5 -/

/-- C5 counterexample: for the unmatched reference `"./nosuch.proto"`
the resolver's error message contains the *cleaned* reference
`"nosuch.proto"` but not the literal reference string
`"./nosuch.proto"`, refuting the claim that the message contains the
literal reference. -/
theorem claim_C5_counterexample :
    findProtoInImports ⟨[("/a", FKind.dir)]⟩ "/w" ["/a"] "./nosuch.proto" =
      .error "could not find proto \"nosuch.proto\" on import path"
    ∧ containsStr "could not find proto \"nosuch.proto\" on import path"
        "./nosuch.proto" = false :=
  ⟨rfl, by decide⟩

/-- C5 (amended): when no search-path entry matches, the resolver falls
back: if the cleaned reference exists on disk as a file it succeeds
with the reference's own containing directory as the import root and
relative subpath ".", with the warning emitted; otherwise it fails with
an error whose message contains the *cleaned* reference string. -/
theorem claim_C5_fallback (fs : FS) (wd : String) (S : List String) (r : String)
    (hr : r ≠ "")
    (hnone : ∀ s ∈ S, entryStep fs wd (clean r) s = none) :
    (statKind fs wd (clean r) = some FKind.file →
      findProtoInImports fs wd S r = .ok ⟨pdir (clean r), ".", true⟩)
    ∧ (statKind fs wd (clean r) = none →
      findProtoInImports fs wd S r =
        .error ("could not find proto \"" ++ clean r ++ "\" on import path")
      ∧ containsStr ("could not find proto \"" ++ clean r ++ "\" on import path")
          (clean r) = true) := by
  have hloop := searchLoop_of_none fs wd (clean r) S hnone
  constructor
  · intro hfile
    apply findProto_fallback_ok fs wd S r FKind.file hr hloop hfile
    rw [pjoin_dir_dot_base r]
    exact hfile
  · intro hmiss
    refine ⟨findProto_fallback_err fs wd S r hr hloop hmiss, ?_⟩
    exact containsStr_append_middle "could not find proto \"" "\" on import path" (clean r)

/-- C5 witness: the amended theorem at a concrete filesystem, in the
fallback-success case (file present on disk but on no search path). -/
theorem claim_C5_witness :
    findProtoInImports ⟨[("/ex", FKind.dir), ("/ex/d", FKind.dir),
        ("/ex/d/h.proto", FKind.file)]⟩ "/w" ["/nosuch"] "/ex/d/h.proto" =
      .ok ⟨"/ex/d", ".", true⟩ :=
  (claim_C5_fallback ⟨[("/ex", FKind.dir), ("/ex/d", FKind.dir),
      ("/ex/d/h.proto", FKind.file)]⟩ "/w" ["/nosuch"] "/ex/d/h.proto"
    (by decide) (by
      intro s hs
      rw [List.mem_singleton.mp hs]
      rfl)).1 rfl

/-! ## Lemmas: the namespace rewriter -/

theorem stripLit_isSome_head (x : Char) (lit cs : List Char)
    (h : (stripLit (x :: lit) cs).isSome = true) : ∃ rest, cs = x :: rest := by
  cases cs with
  | nil => simp [stripLit] at h
  | cons c t =>
    unfold stripLit at h
    by_cases hc : c = x
    · exact ⟨t, by rw [hc]⟩
    · rw [if_neg hc] at h
      simp at h

theorem goPackage_head (l : String) (h : goPackageLineP l = true) :
    ∃ rest, l.data = 'o' :: rest := by
  cases hd : l.data with
  | nil =>
    exfalso
    have hl : l = "" := strExt l "" hd
    rw [hl] at h
    exact absurd h (by decide)
  | cons c t =>
    refine ⟨t, ?_⟩
    congr 1
    by_contra hc
    unfold goPackageLineP at h
    rw [hd] at h
    have hstrip : stripLit ("option".data) (c :: t) = none := by
      show (if c = 'o' then stripLit ("ption".data) t else none) = none
      rw [if_neg hc]
    rw [hstrip] at h
    simp at h

theorem version_head (l : String) (h : versionLineP l = true) :
    ∃ rest, l.data = 's' :: rest := by
  cases hd : l.data with
  | nil =>
    exfalso
    have hl : l = "" := strExt l "" hd
    rw [hl] at h
    exact absurd h (by decide)
  | cons c t =>
    refine ⟨t, ?_⟩
    congr 1
    by_contra hc
    unfold versionLineP at h
    rw [hd] at h
    have hstrip : stripLit ("syntax".data) (c :: t) = none := by
      show (if c = 's' then stripLit ("yntax".data) t else none) = none
      rw [if_neg hc]
    rw [hstrip] at h
    simp at h

theorem goPackage_not_version (l : String) (h : goPackageLineP l = true) :
    versionLineP l = false := by
  obtain ⟨rest, hd⟩ := goPackage_head l h
  unfold versionLineP
  rw [hd]
  rfl

theorem version_not_goPackage (l : String) (h : versionLineP l = true) :
    goPackageLineP l = false := by
  obtain ⟨rest, hd⟩ := version_head l h
  unfold goPackageLineP
  rw [hd]
  rfl

theorem goPackageLineP_directive (pkg : String) :
    goPackageLineP (goPackageDirective pkg) = true := rfl

theorem versionLineP_directive (pkg : String) :
    versionLineP (goPackageDirective pkg) = false := rfl

theorem fixLines_true_ok (pkg : String) (lines out : List String)
    (h : fixLines pkg true lines = .ok out) :
    (∀ l ∈ lines, versionLineP l = false) ∧
    out = lines.filter (fun l => !goPackageLineP l) := by
  induction lines generalizing out with
  | nil =>
    unfold fixLines at h
    cases h
    exact ⟨by simp, rfl⟩
  | cons l rest ih =>
    unfold fixLines at h
    by_cases hgp : goPackageLineP l = true
    · rw [if_pos hgp] at h
      obtain ⟨h1, h2⟩ := ih out h
      refine ⟨?_, ?_⟩
      · intro x hx
        rcases List.mem_cons.mp hx with hx | hx
        · exact hx ▸ goPackage_not_version l hgp
        · exact h1 x hx
      · rw [List.filter_cons, if_neg (by simp [hgp])]
        exact h2
    · rw [if_neg hgp] at h
      by_cases hvl : versionLineP l = true
      · rw [if_pos hvl, if_pos rfl] at h
        exact absurd h (by simp)
      · rw [if_neg hvl] at h
        cases hr : fixLines pkg true rest with
        | error e => rw [hr] at h; exact absurd h (by simp [Bind.bind, Except.bind])
        | ok out' =>
          rw [hr] at h
          have hout : out = l :: out' := by
            simpa [Bind.bind, Except.bind] using h.symm
          obtain ⟨h1, h2⟩ := ih out' hr
          refine ⟨?_, ?_⟩
          · intro x hx
            rcases List.mem_cons.mp hx with hx | hx
            · exact hx ▸ (by simpa using hvl)
            · exact h1 x hx
          · rw [hout, List.filter_cons, if_pos (by simp [hgp]), h2]

theorem fixLines_false_ok (pkg : String) (lines out : List String)
    (h : fixLines pkg false lines = .ok out) :
    ∃ pre syn post, lines = pre ++ syn :: post ∧
      (∀ l ∈ pre, versionLineP l = false) ∧ versionLineP syn = true ∧
      (∀ l ∈ post, versionLineP l = false) ∧
      out = pre.filter (fun l => !goPackageLineP l) ++
        syn :: goPackageDirective pkg :: "" ::
          post.filter (fun l => !goPackageLineP l) := by
  induction lines generalizing out with
  | nil =>
    unfold fixLines at h
    exact absurd h (by simp)
  | cons l rest ih =>
    unfold fixLines at h
    by_cases hgp : goPackageLineP l = true
    · rw [if_pos hgp] at h
      obtain ⟨pre, syn, post, hsplit, hpre, hsyn, hpost, hout⟩ := ih out h
      refine ⟨l :: pre, syn, post, by rw [hsplit]; rfl, ?_, hsyn, hpost, ?_⟩
      · intro x hx
        rcases List.mem_cons.mp hx with hx | hx
        · exact hx ▸ goPackage_not_version l hgp
        · exact hpre x hx
      · rw [List.filter_cons, if_neg (by simp [hgp])]
        exact hout
    · rw [if_neg hgp] at h
      by_cases hvl : versionLineP l = true
      · rw [if_pos hvl, if_neg (by simp)] at h
        cases hr : fixLines pkg true rest with
        | error e => rw [hr] at h; exact absurd h (by simp [Bind.bind, Except.bind])
        | ok out' =>
          rw [hr] at h
          have hout : out = l :: goPackageDirective pkg :: "" :: out' := by
            simpa [Bind.bind, Except.bind] using h.symm
          obtain ⟨h1, h2⟩ := fixLines_true_ok pkg rest out' hr
          exact ⟨[], l, rest, rfl, by simp, hvl, h1, by rw [hout, h2]; rfl⟩
      · rw [if_neg hvl] at h
        cases hr : fixLines pkg false rest with
        | error e => rw [hr] at h; exact absurd h (by simp [Bind.bind, Except.bind])
        | ok out' =>
          rw [hr] at h
          have hout : out = l :: out' := by
            simpa [Bind.bind, Except.bind] using h.symm
          obtain ⟨pre, syn, post, hsplit, hpre, hsyn, hpost, hout'⟩ := ih out' hr
          refine ⟨l :: pre, syn, post, by rw [hsplit]; rfl, ?_, hsyn, hpost, ?_⟩
          · intro x hx
            rcases List.mem_cons.mp hx with hx | hx
            · exact hx ▸ (by simpa using hvl)
            · exact hpre x hx
          · rw [hout, List.filter_cons, if_pos (by simp [hgp]), hout']
            rfl

theorem fixLines_missing (pkg : String) (lines : List String)
    (h : ∀ l ∈ lines, versionLineP l = false) :
    fixLines pkg false lines =
      .error "no \"syntax\" line found when scanning proto file" := by
  induction lines with
  | nil => rfl
  | cons l rest ih =>
    have hvl : versionLineP l = false := h l (by simp)
    unfold fixLines
    by_cases hgp : goPackageLineP l = true
    · rw [if_pos hgp]
      exact ih (fun x hx => h x (List.mem_cons_of_mem l hx))
    · rw [if_neg hgp, if_neg (by simp [hvl]),
        ih (fun x hx => h x (List.mem_cons_of_mem l hx))]
      rfl

theorem fixLines_true_multi (pkg : String) (lines : List String)
    (h : 1 ≤ lines.countP (fun l => versionLineP l)) :
    fixLines pkg true lines =
      .error "Found more than one \"syntax\" statement" := by
  induction lines with
  | nil => simp [List.countP_nil] at h
  | cons l rest ih =>
    rw [List.countP_cons] at h
    unfold fixLines
    by_cases hgp : goPackageLineP l = true
    · rw [if_pos hgp]
      apply ih
      rw [goPackage_not_version l hgp] at h
      simpa using h
    · rw [if_neg hgp]
      by_cases hvl : versionLineP l = true
      · rw [if_pos hvl, if_pos rfl]
      · rw [if_neg hvl]
        have hrest : 1 ≤ rest.countP (fun l => versionLineP l) := by
          rw [show versionLineP l = false by simpa using hvl] at h
          simpa using h
        rw [ih hrest]
        rfl

theorem fixLines_false_multi (pkg : String) (lines : List String)
    (h : 2 ≤ lines.countP (fun l => versionLineP l)) :
    fixLines pkg false lines =
      .error "Found more than one \"syntax\" statement" := by
  induction lines with
  | nil => simp [List.countP_nil] at h
  | cons l rest ih =>
    rw [List.countP_cons] at h
    unfold fixLines
    by_cases hgp : goPackageLineP l = true
    · rw [if_pos hgp]
      apply ih
      rw [goPackage_not_version l hgp] at h
      simpa using h
    · rw [if_neg hgp]
      by_cases hvl : versionLineP l = true
      · rw [if_pos hvl, if_neg (by simp)]
        have hrest : 1 ≤ rest.countP (fun l => versionLineP l) := by
          rw [hvl, if_pos rfl] at h
          omega
        rw [fixLines_true_multi pkg rest hrest]
        rfl
      · rw [if_neg hvl]
        have hrest : 2 ≤ rest.countP (fun l => versionLineP l) := by
          rw [show versionLineP l = false by simpa using hvl] at h
          simpa using h
        rw [ih hrest]
        rfl

/-! ## Claim C6 -/

/-- C6: on every accepted input the rewriter's output consists of the
input's non-go_package lines in order, with exactly one namespace
directive inserted (followed by a blank line) immediately after the
unique syntax/version declaration line, and the rewrite is
deterministic. -/
theorem claim_C6_rewrite_shape (lines : List String) (pkg : String)
    (out : List String)
    (h : fixGoPackageProtoStream lines pkg = .ok out) :
    ∃ pre syn post,
      out = pre ++ syn :: goPackageDirective pkg :: "" :: post ∧
      versionLineP syn = true ∧
      goPackageLineP (goPackageDirective pkg) = true ∧
      versionLineP (goPackageDirective pkg) = false ∧
      (∀ l ∈ pre, versionLineP l = false ∧ goPackageLineP l = false) ∧
      (∀ l ∈ post, versionLineP l = false ∧ goPackageLineP l = false) ∧
      out.countP (fun l => goPackageLineP l) = 1 ∧
      pre ++ syn :: post = lines.filter (fun l => !goPackageLineP l) ∧
      (∀ out2, fixGoPackageProtoStream lines pkg = .ok out2 → out2 = out) := by
  have hdet : ∀ out2, fixGoPackageProtoStream lines pkg = .ok out2 → out2 = out := by
    intro out2 h2
    rw [h] at h2
    exact (Except.ok.injEq _ _ ▸ h2).symm
  unfold fixGoPackageProtoStream at h
  by_cases hpkg : pkg = ""
  · rw [if_pos hpkg] at h
    exact absurd h (by simp)
  · rw [if_neg hpkg] at h
    obtain ⟨pre0, syn, post0, hsplit, hpre, hsyn, hpost, hout⟩ :=
      fixLines_false_ok pkg lines out h
    refine ⟨pre0.filter (fun l => !goPackageLineP l), syn,
      post0.filter (fun l => !goPackageLineP l), hout, hsyn,
      goPackageLineP_directive pkg, versionLineP_directive pkg, ?_, ?_, ?_, ?_, hdet⟩
    · intro x hx
      exact ⟨hpre x (List.mem_of_mem_filter hx),
        by simpa using List.of_mem_filter hx⟩
    · intro x hx
      exact ⟨hpost x (List.mem_of_mem_filter hx),
        by simpa using List.of_mem_filter hx⟩
    · rw [hout, List.countP_append, List.countP_cons, List.countP_cons,
        List.countP_cons]
      have h1 : (pre0.filter (fun l => !goPackageLineP l)).countP
          (fun l => goPackageLineP l) = 0 := by
        rw [List.countP_eq_zero]
        intro a ha
        simpa using List.of_mem_filter ha
      have h2 : (post0.filter (fun l => !goPackageLineP l)).countP
          (fun l => goPackageLineP l) = 0 := by
        rw [List.countP_eq_zero]
        intro a ha
        simpa using List.of_mem_filter ha
      rw [h1, h2, version_not_goPackage syn hsyn, goPackageLineP_directive pkg,
        show goPackageLineP "" = false from rfl]
      simp
    · rw [hsplit, List.filter_append, List.filter_cons,
        if_pos (by simp [version_not_goPackage syn hsyn])]

/-- C6 witness: the theorem applied to a concrete proto file; its
rewritten output contains exactly one namespace directive. -/
theorem claim_C6_witness :
    (["syntax = \"proto3\";", goPackageDirective "p", "",
        "message M {}"] : List String).countP (fun l => goPackageLineP l) = 1 := by
  obtain ⟨pre, syn, post, hout, _, _, _, _, _, hcount, _, _⟩ :=
    claim_C6_rewrite_shape
      ["syntax = \"proto3\";", "option go_package = \"old\";", "message M {}"] "p"
      ["syntax = \"proto3\";", goPackageDirective "p", "", "message M {}"] rfl
  exact hcount

/-! ## Claim C7 -/

/-- C7: the rewriter fails on every input with zero syntax/version
declaration lines (missing-declaration error, after the whole input is
consumed), fails on every input with two or more such lines
(multiple-declarations error), and fails on every input whatsoever when
the target namespace is empty. -/
theorem claim_C7_failure_modes :
    (∀ lines : List String,
      fixGoPackageProtoStream lines "" = .error "empty package name")
    ∧ (∀ (lines : List String) (pkg : String), pkg ≠ "" →
        lines.countP (fun l => versionLineP l) = 0 →
        fixGoPackageProtoStream lines pkg =
          .error "no \"syntax\" line found when scanning proto file")
    ∧ (∀ (lines : List String) (pkg : String), pkg ≠ "" →
        2 ≤ lines.countP (fun l => versionLineP l) →
        fixGoPackageProtoStream lines pkg =
          .error "Found more than one \"syntax\" statement") := by
  refine ⟨?_, ?_, ?_⟩
  · intro lines
    unfold fixGoPackageProtoStream
    rw [if_pos rfl]
  · intro lines pkg hpkg h0
    unfold fixGoPackageProtoStream
    rw [if_neg hpkg]
    apply fixLines_missing
    intro l hl
    have := List.countP_eq_zero.mp h0 l hl
    simpa using this
  · intro lines pkg hpkg h2
    unfold fixGoPackageProtoStream
    rw [if_neg hpkg]
    exact fixLines_false_multi pkg lines h2

/-- C7 witness: concrete failing inputs for the missing and the
duplicated declaration line. -/
theorem claim_C7_witness :
    fixGoPackageProtoStream ["message M {}"] "p" =
      .error "no \"syntax\" line found when scanning proto file"
    ∧ fixGoPackageProtoStream ["syntax = \"a\";", "x", "syntax = \"b\";"] "p" =
      .error "Found more than one \"syntax\" statement" :=
  ⟨claim_C7_failure_modes.2.1 ["message M {}"] "p" (by decide) (by decide),
   claim_C7_failure_modes.2.2 ["syntax = \"a\";", "x", "syntax = \"b\";"] "p"
     (by decide) (by decide)⟩

/-! ## Claim C8 -/

theorem fixGoPackagesLoop_get (fs : FS) (wd : String)
    (contents : String → List String) (imports : List String) (output : String)
    (protos : List String) (ws : List WrittenProto)
    (h : fixGoPackagesLoop fs wd contents imports output protos = .ok ws) :
    ∀ i w proto, ws.get? i = some w → protos.get? i = some proto →
      ∃ res : Resolved,
        findProtoInImports fs wd imports proto = .ok res ∧
        w.resolvedSrc = pjoin [res.imp, res.rel, pbase proto] ∧
        w.newPackage = pjoin [GENERATED_MODULE_NAME, res.rel] ∧
        w.outPath = pjoin [pjoin [output, res.rel], pbase proto] := by
  induction protos generalizing ws with
  | nil =>
    unfold fixGoPackagesLoop at h
    cases h
    intro i w proto hw hp
    simp at hp
  | cons proto rest ih =>
    unfold fixGoPackagesLoop at h
    split at h
    next e hres => exact absurd h (by simp)
    next res hres =>
      split at h
      next e hstream => exact absurd h (by simp)
      next ls hstream =>
        split at h
        next e hrest => exact absurd h (by simp)
        next ws' hrest =>
          cases h
          intro i w proto' hw hp
          cases i with
          | zero =>
            rw [List.get?_cons_zero] at hw
            rw [List.get?_cons_zero] at hp
            cases hw
            cases hp
            exact ⟨res, hres, rfl, rfl, rfl⟩
          | succ n =>
            rw [List.get?_cons_succ] at hw
            rw [List.get?_cons_succ] at hp
            exact ih ws' hrest n w proto' hw hp

/-- C8: for every proto processed by `fixGoPackages`, the go_package
written into the rewritten copy is derived from the fixed module root
`GENERATED_MODULE_NAME` joined with the resolved relative subpath, the
rewritten file is placed in the output tree at exactly that subpath,
and neither depends on the file's contents (hence not on the namespace
declared inside the file). -/
theorem claim_C8_output_namespace (fs : FS) (wd : String)
    (contents : String → List String) (imports : List String) (output : String)
    (protos : List String) (ws : List WrittenProto)
    (h : fixGoPackagesLoop fs wd contents imports output protos = .ok ws) :
    ∀ i w proto, ws.get? i = some w → protos.get? i = some proto →
      ∃ res : Resolved,
        findProtoInImports fs wd imports proto = .ok res ∧
        w.newPackage = pjoin [GENERATED_MODULE_NAME, res.rel] ∧
        w.outPath = pjoin [pjoin [output, res.rel], pbase proto] ∧
        (∀ (contents2 : String → List String) (ws2 : List WrittenProto)
            (w2 : WrittenProto),
          fixGoPackagesLoop fs wd contents2 imports output protos = .ok ws2 →
          ws2.get? i = some w2 →
          w2.newPackage = w.newPackage ∧ w2.outPath = w.outPath) := by
  intro i w proto hw hp
  obtain ⟨res, hres, _, hpkg, hout⟩ :=
    fixGoPackagesLoop_get fs wd contents imports output protos ws h i w proto hw hp
  refine ⟨res, hres, hpkg, hout, ?_⟩
  intro contents2 ws2 w2 h2 hw2
  obtain ⟨res2, hres2, _, hpkg2, hout2⟩ :=
    fixGoPackagesLoop_get fs wd contents2 imports output protos ws2 h2 i w2 proto hw2 hp
  have hr : res2 = res := by
    rw [hres] at hres2
    exact Except.ok.injEq _ _ ▸ hres2.symm
  rw [hpkg2, hout2, hr, hpkg, hout]
  exact ⟨rfl, rfl⟩

/-- C8 witness: a concrete run; the package written for `x.proto`
resolved at subpath "." under import "/a" is
`gripmock/generated` and the file lands at `gen/x.proto`. -/
theorem claim_C8_witness :
    ∃ res : Resolved,
      findProtoInImports ⟨[("/a", FKind.dir), ("/a/x.proto", FKind.file)]⟩ "/w"
        ["/a"] "x.proto" = .ok res ∧
      (WrittenProto.mk "/a/x.proto" "gen/x.proto" "gripmock/generated"
          ["syntax = \"proto3\";", goPackageDirective "gripmock/generated",
            ""]).newPackage = pjoin [GENERATED_MODULE_NAME, res.rel] ∧
      (WrittenProto.mk "/a/x.proto" "gen/x.proto" "gripmock/generated"
          ["syntax = \"proto3\";", goPackageDirective "gripmock/generated",
            ""]).outPath = pjoin [pjoin ["gen", res.rel], pbase "x.proto"] ∧
      (∀ (contents2 : String → List String) (ws2 : List WrittenProto)
          (w2 : WrittenProto),
        fixGoPackagesLoop ⟨[("/a", FKind.dir), ("/a/x.proto", FKind.file)]⟩ "/w"
          contents2 ["/a"] "gen" ["x.proto"] = .ok ws2 →
        ws2.get? 0 = some w2 →
        w2.newPackage = (WrittenProto.mk "/a/x.proto" "gen/x.proto"
          "gripmock/generated" ["syntax = \"proto3\";",
            goPackageDirective "gripmock/generated", ""]).newPackage ∧
        w2.outPath = (WrittenProto.mk "/a/x.proto" "gen/x.proto"
          "gripmock/generated" ["syntax = \"proto3\";",
            goPackageDirective "gripmock/generated", ""]).outPath) :=
  claim_C8_output_namespace ⟨[("/a", FKind.dir), ("/a/x.proto", FKind.file)]⟩ "/w"
    (fun _ => ["syntax = \"proto3\";"]) ["/a"] "gen" ["x.proto"]
    [WrittenProto.mk "/a/x.proto" "gen/x.proto" "gripmock/generated"
      ["syntax = \"proto3\";", goPackageDirective "gripmock/generated", ""]]
    rfl 0
    (WrittenProto.mk "/a/x.proto" "gen/x.proto" "gripmock/generated"
      ["syntax = \"proto3\";", goPackageDirective "gripmock/generated", ""])
    "x.proto" rfl rfl

/-! ## Claim C1 -/

/-- C1: evaluation of `main` at the failing input.  A clean child exit
makes `run.Wait()` return nil (`waitErrOf 0 = none`), which falls into
the select loop's `default:` branch: the loop logs, re-enters the
select and blocks forever, so the orchestrator never exits 0 — the
`if e.Success() { os.Exit(0) }` branch is unreachable.  The remaining
exit codes behave as claimed: build failure exits 2, a non-zero child
exit exits 3, and missing proto arguments or an empty output directory
exit 4. -/
theorem claim_C1_exit_codes :
    mainModel { argv := ["gripmock", "x.proto"], outputFlag := "generated",
                    outputExists := true, mkdirOk := true, protoArgs := ["x.proto"],
                    generateOk := true, buildOk := true, startOk := true,
                    childEvents := [LoopEvent.childExit (waitErrOf 0)] } = Outcome.hang
    ∧ Outcome.hang ≠ Outcome.exit 0
    ∧ mainModel { argv := ["gripmock", "x.proto"], outputFlag := "generated",
                    outputExists := true, mkdirOk := true, protoArgs := ["x.proto"],
                    generateOk := true, buildOk := true, startOk := true,
                    childEvents := [LoopEvent.childExit (waitErrOf 7)] } =
      Outcome.exit EXITCODE_RUNTIME_ERROR
    ∧ mainModel { argv := ["gripmock", "x.proto"], outputFlag := "generated",
                    outputExists := true, mkdirOk := true, protoArgs := ["x.proto"],
                    generateOk := false, buildOk := true, startOk := true,
                    childEvents := [] } = Outcome.exit EXITCODE_BUILD_ERROR
    ∧ mainModel { argv := ["gripmock", "x.proto"], outputFlag := "generated",
                    outputExists := true, mkdirOk := true, protoArgs := ["x.proto"],
                    generateOk := true, buildOk := false, startOk := true,
                    childEvents := [] } = Outcome.exit EXITCODE_BUILD_ERROR
    ∧ mainModel { argv := ["gripmock"], outputFlag := "generated",
                    outputExists := true, mkdirOk := true, protoArgs := [],
                    generateOk := true, buildOk := true, startOk := true,
                    childEvents := [] } = Outcome.panicked
    ∧ mainModel { argv := ["gripmock", "x"], outputFlag := "generated",
                    outputExists := true, mkdirOk := true, protoArgs := [],
                    generateOk := true, buildOk := true, startOk := true,
                    childEvents := [] } = Outcome.exit EXITCODE_ARGUMENTS_ERROR
    ∧ mainModel { argv := ["gripmock", "x"], outputFlag := "",
                    outputExists := true, mkdirOk := true, protoArgs := ["x.proto"],
                    generateOk := true, buildOk := true, startOk := true,
                    childEvents := [] } = Outcome.exit EXITCODE_ARGUMENTS_ERROR := by
  refine ⟨rfl, by decide, rfl, rfl, rfl, rfl, rfl, rfl⟩

/-! ## Claim C2 -/

/-- C2 counterexample: when the child exits on its own cleanly (exit
status 0, so `run.Wait()` delivers nil), the select loop does not exit
at all — it consumes the event and keeps looping — refuting the claim
that the orchestrator then "exits mirroring the child's status". -/
theorem claim_C2_counterexample :
    runSelectLoop false 0 [LoopEvent.childExit (waitErrOf 0)] =
      ⟨none, false, 1⟩
    ∧ (runSelectLoop false 0 [LoopEvent.childExit (waitErrOf 0)]).exitCode ≠
      some 0 := by
  refine ⟨rfl, by decide⟩

/-- C2 (amended): the select loop exits only when a child-wait
notification carrying an `*exec.ExitError` arrives; a termination
signal forwards a kill to the child and keeps looping, so after
signal-then-wait the loop exits (with the runtime code) only once the
wait completes; a child that exits on its own with non-zero status
makes the loop exit immediately with the runtime code without touching
the signal channel; a clean self-exit leaves the loop running. -/
theorem claim_C2_signal_supervision :
    (∀ (evs : List LoopEvent) (k : Bool) (n : Nat),
        ((runSelectLoop k n evs).exitCode).isSome = true →
        ∃ i c, evs.get? i = some (LoopEvent.childExit (some c)))
    ∧ (∀ (c : Int) (rest : List LoopEvent), c ≠ 0 →
        runSelectLoop false 0
            (LoopEvent.signal :: LoopEvent.childExit (waitErrOf c) :: rest) =
          ⟨some EXITCODE_RUNTIME_ERROR, true, 2⟩)
    ∧ (∀ (c : Int) (rest : List LoopEvent), c ≠ 0 →
        runSelectLoop false 0 (LoopEvent.childExit (waitErrOf c) :: rest) =
          ⟨some EXITCODE_RUNTIME_ERROR, false, 1⟩)
    ∧ (∀ (rest : List LoopEvent) (k : Bool) (n : Nat),
        runSelectLoop k n (LoopEvent.childExit (waitErrOf 0) :: rest) =
          runSelectLoop k (n + 1) rest) := by
  refine ⟨?_, ?_, ?_, ?_⟩
  · intro evs
    induction evs with
    | nil => intro k n h; simp [runSelectLoop] at h
    | cons e rest ih =>
      intro k n h
      cases e with
      | signal =>
        obtain ⟨i, c, hi⟩ := ih true (n + 1) h
        exact ⟨i + 1, c, by rwa [List.get?_cons_succ]⟩
      | childExit we =>
        cases we with
        | none =>
          obtain ⟨i, c, hi⟩ := ih k (n + 1) h
          exact ⟨i + 1, c, by rwa [List.get?_cons_succ]⟩
        | some c => exact ⟨0, c, rfl⟩
  · intro c rest hc
    simp [runSelectLoop, waitErrOf, hc]
  · intro c rest hc
    simp [runSelectLoop, waitErrOf, hc]
  · intro rest k n
    rfl

/-- C2 witness: the amended theorem at a concrete trace: a signal
followed by the killed child's non-zero wait result. -/
theorem claim_C2_witness :
    runSelectLoop false 0
        [LoopEvent.signal, LoopEvent.childExit (waitErrOf 1)] =
      ⟨some EXITCODE_RUNTIME_ERROR, true, 2⟩ :=
  claim_C2_signal_supervision.2.1 1 [] (by decide)

/-! ## Claim C9 -/

/-- C9: `main` indexes `os.Args[1]` before flag parsing, so with fewer
than two entries in `os.Args` (in particular, an invocation with zero
command-line arguments) it panics with an index-out-of-range instead of
exiting with the argument-error code; the argument-error exit is only
reachable with at least one argument present. -/
theorem claim_C9_argv_panic :
    (∀ w : World, w.argv.length ≤ 1 → mainModel w = Outcome.panicked)
    ∧ (∀ w : World, mainModel w = Outcome.exit EXITCODE_ARGUMENTS_ERROR →
        2 ≤ w.argv.length) := by
  have hpanic : ∀ w : World, w.argv.length ≤ 1 → mainModel w = Outcome.panicked := by
    intro w hlen
    unfold mainModel
    cases hargv : w.argv with
    | nil => rfl
    | cons a t =>
      cases t with
      | nil => rfl
      | cons b t' =>
        rw [hargv] at hlen
        simp at hlen
  refine ⟨hpanic, ?_⟩
  intro w h
  by_contra hlen
  rw [hpanic w (by omega)] at h
  exact absurd h (by decide)

/-- C9 witness: invoking with `os.Args = ["gripmock"]` (zero
command-line arguments) panics. -/
theorem claim_C9_witness :
    mainModel { argv := ["gripmock"], outputFlag := "generated",
                    outputExists := true, mkdirOk := true, protoArgs := [],
                    generateOk := true, buildOk := true, startOk := true,
                    childEvents := [] } = Outcome.panicked :=
  claim_C9_argv_panic.1
    { argv := ["gripmock"], outputFlag := "generated",
                    outputExists := true, mkdirOk := true, protoArgs := [],
                    generateOk := true, buildOk := true, startOk := true,
                    childEvents := [] } (by decide)

/-! ## Claim C10 -/

/-- C10: `buildServer` changes the working directory to the output
directory for the build steps and, whenever every step succeeds,
restores the original working directory before returning: on every
successful return the caller observes the working directory unchanged
(the initial directory being the resolved path `os.Getwd` reports). -/
theorem claim_C10_buildserver_cwd (env : BuildEnv) (st : OsState)
    (output : String)
    (hclean : clean st.cwd = st.cwd) (habs : isAbs st.cwd = true)
    (hok : (buildServer env st output).2 = .ok ()) :
    (buildServer env st output).1.cwd = st.cwd ∧
    env.chdirOk output = true := by
  unfold buildServer at hok ⊢
  by_cases hg : env.getwdOk = true
  · rw [if_neg (by simp [hg])] at hok ⊢
    by_cases hco : env.chdirOk output = true
    · rw [if_neg (by simp [hco])] at hok ⊢
      by_cases hme : env.modEditOk = true
      · rw [if_neg (by simp [hme])] at hok ⊢
        by_cases hty : env.tidyOk = true
        · rw [if_neg (by simp [hty])] at hok ⊢
          by_cases hgb : env.goBuildOk = true
          · rw [if_neg (by simp [hgb])] at hok ⊢
            by_cases hcb : env.chdirOk st.cwd = true
            · rw [if_neg (by simp [hcb])] at hok ⊢
              refine ⟨?_, hco⟩
              show chdirTo (chdirTo st.cwd output) st.cwd = st.cwd
              rw [chdirTo, if_pos habs, hclean]
            · rw [if_pos (by simp [hcb])] at hok
              exact absurd hok (by simp)
          · rw [if_pos (by simp [hgb])] at hok
            exact absurd hok (by simp)
        · rw [if_pos (by simp [hty])] at hok
          exact absurd hok (by simp)
      · rw [if_pos (by simp [hme])] at hok
        exact absurd hok (by simp)
    · rw [if_pos (by simp [hco])] at hok
      exact absurd hok (by simp)
  · rw [if_pos (by simp [hg])] at hok
    exact absurd hok (by simp)

/-- C10 witness: a concrete successful build run restores the working
directory. -/
theorem claim_C10_witness :
    (buildServer ⟨true, fun _ => true, true, true, true⟩ ⟨"/w"⟩ "gen").1.cwd =
      "/w" :=
  (claim_C10_buildserver_cwd ⟨true, fun _ => true, true, true, true⟩ ⟨"/w"⟩
    "gen" (by decide) (by decide) rfl).1

end Gripmock
